import Mathlib

/-!
Verification of the rule engine, search engine and peer-synchronization
logic of the FIFO tic-tac-toe program (`tic-tac.py`).

The Python class `GameLogic` is embedded shallowly:

* the board is a `List Mark` in row-major order;
* `check_winner`, `make_move`, `get_valid_moves`, `evaluate_board`,
  `minimax` and `best_move_ai` are translated function by function;
* the mutable board threaded through the search is made explicit:
  `minimax` and `best_move_ai` return the final board next to their
  result, so that the "search leaves the board untouched" property is a
  real statement rather than a triviality;
* Python's `math.inf` is modelled by the integer constants `negInf` and
  `posInf`, which are far outside the range of every reachable score;
* the recursion of `minimax` is driven by the remaining depth
  `fuel = max_d - d`, which mirrors the `d >= max_d` cutoff;
* `random.choice` (EASY difficulty) is modelled by an explicit choice
  function passed to `best_move_ai`; that branch performs no board write.
-/

namespace TicTac

/-- Cell contents: `' '`, `'X'` and `'O'` in the source. -/
inductive Mark where
  | E : Mark
  | X : Mark
  | O : Mark
deriving DecidableEq, Repr

/-- A board is the row-major list of its `n * n` cells
(`self.board = [EMPTY] * self.total_cells`). -/
abbrev Board := List Mark

/-- Translation of `GameLogic.check_winner`: any full row, any full column,
or either main diagonal made of `p`. -/
def check_winner (n : Nat) (b : Board) (p : Mark) : Bool :=
  ((List.range n).any fun r => (List.range n).all fun c => b.getD (r*n+c) Mark.E == p) ||
  ((List.range n).any fun c => (List.range n).all fun r => b.getD (r*n+c) Mark.E == p) ||
  ((List.range n).all fun i => b.getD (i*n+i) Mark.E == p) ||
  ((List.range n).all fun i => b.getD (i*n+(n-1-i)) Mark.E == p)

/-- The winning condition spelled out as a proposition (used to state that
`check_winner` decides exactly it). -/
def winsProp (n : Nat) (b : Board) (p : Mark) : Prop :=
  (∃ r, r < n ∧ ∀ c, c < n → b.getD (r*n+c) Mark.E = p) ∨
  (∃ c, c < n ∧ ∀ r, r < n → b.getD (r*n+c) Mark.E = p) ∨
  (∀ i, i < n → b.getD (i*n+i) Mark.E = p) ∨
  (∀ i, i < n → b.getD (i*n+(n-1-i)) Mark.E = p)

/-- The other player's mark. -/
def other (p : Mark) : Mark := if p = Mark.X then Mark.O else Mark.X

/-- Cells of the `ℓ`-th winning line of an `n × n` board: lines `0 … n-1`
are the rows, `n … 2n-1` the columns, `2n` the main diagonal and `2n+1`
the anti-diagonal. -/
def line_cells (n ℓ : Nat) : List Nat :=
  if ℓ < n then (List.range n).map fun c => ℓ*n + c
  else if ℓ < 2*n then (List.range n).map fun r => r*n + (ℓ - n)
  else if ℓ = 2*n then (List.range n).map fun i => i*n + i
  else (List.range n).map fun i => i*n + (n-1-i)

/-- The board holding `p` exactly on the `ℓ`-th winning line and empty
everywhere else. -/
def line_board (n ℓ : Nat) (p : Mark) : Board :=
  (List.range (n*n)).map fun i => if i ∈ line_cells n ℓ then p else Mark.E

/-- State of `GameLogic`: board plus the two FIFO move queues
(`self.move_queues`). -/
structure GameState where
  n : Nat
  board : Board
  qX : List Nat
  qO : List Nat
deriving DecidableEq, Repr

/-- The move queue of a player (the dictionary `self.move_queues[player]`;
the key `' '` is never used by the program). -/
def queues (g : GameState) : Mark → List Nat
  | Mark.X => g.qX
  | Mark.O => g.qO
  | Mark.E => []

/-- Replace a player's move queue. -/
def setQueues (g : GameState) (p : Mark) (q : List Nat) : GameState :=
  match p with
  | Mark.X => { g with qX := q }
  | Mark.O => { g with qO := q }
  | Mark.E => g

/-- Translation of `GameLogic.__init__`. -/
def initGame (n : Nat) : GameState :=
  { n := n, board := List.replicate (n*n) Mark.E, qX := [], qO := [] }

/-- Translation of `GameLogic.make_move`: write the mark, append the cell
to the player's queue, and if the queue now exceeds `n` entries pop its
front and clear that cell.  Returns the evicted cell, if any. -/
def make_move (g : GameState) (pos : Nat) (p : Mark) : GameState × Option Nat :=
  let b1 := g.board.set pos p
  let q := queues g p ++ [pos]
  if q.length > g.n then
    let removed := q.headD 0
    (setQueues { g with board := b1.set removed Mark.E } p q.tail, some removed)
  else
    (setQueues { g with board := b1 } p q, none)

/-- Apply a list of `(cell, player)` moves in order. -/
def applySeq (g : GameState) (ms : List (Nat × Mark)) : GameState :=
  ms.foldl (fun g m => (make_move g m.1 m.2).1) g

/-- A move sequence in which every move is by `X` or `O` and targets an
in-range empty cell of the state it is played on. -/
def legalSeqB (g : GameState) : List (Nat × Mark) → Bool
  | [] => true
  | (pos, p) :: rest =>
    (p == Mark.X || p == Mark.O) &&
    decide (pos < g.n * g.n) &&
    (g.board.getD pos Mark.E == Mark.E) &&
    legalSeqB (make_move g pos p).1 rest

/-- Modelled from the spec: the repository has no `undo`; §4.1 defines
`undo(board, move, player, undoToken)` as the exact inverse of `apply`,
restoring an evicted piece to the front of the owner's MoveQueue (oldest
position) before removing the placed piece from the back and clearing its
cell. -/
def undo_move (g : GameState) (pos : Nat) (p : Mark) (token : Option Nat) : GameState :=
  let g1 := match token with
    | some r => setQueues { g with board := g.board.set r p } p (r :: queues g p)
    | none => g
  setQueues { g1 with board := g1.board.set pos Mark.E } p (queues g1 p).dropLast

/-- Translation of `GameLogic.get_valid_moves`: the indices of the empty
cells. -/
def get_valid_moves (b : Board) : List Nat :=
  (List.range b.length).filter fun i => b.getD i Mark.E == Mark.E

/-- Translation of `GameLogic.evaluate_board`: a fixed bonus/penalty for
occupancy of the centre cell, nothing else. -/
def evaluate_board (n : Nat) (b : Board) : Int :=
  let center := n / 2
  let idx := center * n + center
  if b.getD idx Mark.E == Mark.O then 15
  else if b.getD idx Mark.E == Mark.X then -15
  else 0

/-- Stand-in for `-math.inf`: strictly below every reachable score. -/
def negInf : Int := -1000000000

/-- Stand-in for `math.inf`: strictly above every reachable score. -/
def posInf : Int := 1000000000

/-- The maximizing branch of `GameLogic.minimax`: try each move (placing
`O`), keep the running maximum and `alpha`, and break once
`beta <= alpha`.  The board is threaded exactly as the Python code
mutates and restores it. -/
def abMaxLoop (child : Board → Int → Int → Int × Board) :
    List Nat → Board → Int → Int → Int → Int × Board
  | [], b, _, _, acc => (acc, b)
  | m :: rest, b, alpha, beta, acc =>
    let r := child (b.set m Mark.O) alpha beta
    let b3 := r.2.set m Mark.E
    let acc' := max acc r.1
    let alpha' := max alpha r.1
    if beta ≤ alpha' then (acc', b3)
    else abMaxLoop child rest b3 alpha' beta acc'

/-- The minimizing branch of `GameLogic.minimax` (placing `X`). -/
def abMinLoop (child : Board → Int → Int → Int × Board) :
    List Nat → Board → Int → Int → Int → Int × Board
  | [], b, _, _, acc => (acc, b)
  | m :: rest, b, alpha, beta, acc =>
    let r := child (b.set m Mark.X) alpha beta
    let b3 := r.2.set m Mark.E
    let acc' := min acc r.1
    let beta' := min beta r.1
    if beta' ≤ alpha then (acc', b3)
    else abMinLoop child rest b3 alpha beta' acc'

/-- Translation of `GameLogic.minimax`.  `fuel` is the remaining depth
`max_d - d`, so `fuel = 0` is exactly the `d >= max_d` cutoff; `d` is the
current depth used in the terminal scores.  The second component is the
board as the Python method leaves it. -/
def minimax (n : Nat) : Nat → Board → Nat → Bool → Int → Int → Int × Board
  | fuel, b, d, isMax, alpha, beta =>
    if check_winner n b Mark.O then (1000 - (d : Int), b)
    else if check_winner n b Mark.X then (-1000 + (d : Int), b)
    else
      match fuel with
      | 0 => (evaluate_board n b, b)
      | fuel' + 1 =>
        let ms := get_valid_moves b
        if ms.isEmpty then (evaluate_board n b, b)
        else if isMax then
          abMaxLoop (fun b2 a2 b2' => minimax n fuel' b2 (d+1) false a2 b2') ms b alpha beta negInf
        else
          abMinLoop (fun b2 a2 b2' => minimax n fuel' b2 (d+1) true a2 b2') ms b alpha beta posInf

/-- Pure (board-preserving) version of `abMaxLoop`; used to phrase the
value of the search separately from its effect on the board. -/
def abMaxLoopP (child : Board → Int → Int → Int) :
    List Nat → Board → Int → Int → Int → Int
  | [], _, _, _, acc => acc
  | m :: rest, b, alpha, beta, acc =>
    let v := child (b.set m Mark.O) alpha beta
    let acc' := max acc v
    let alpha' := max alpha v
    if beta ≤ alpha' then acc'
    else abMaxLoopP child rest b alpha' beta acc'

/-- Pure version of `abMinLoop`. -/
def abMinLoopP (child : Board → Int → Int → Int) :
    List Nat → Board → Int → Int → Int → Int
  | [], _, _, _, acc => acc
  | m :: rest, b, alpha, beta, acc =>
    let v := child (b.set m Mark.X) alpha beta
    let acc' := min acc v
    let beta' := min beta v
    if beta' ≤ alpha then acc'
    else abMinLoopP child rest b alpha beta' acc'

/-- Pure version of `minimax`: same value, no board threading. -/
def minimaxAB (n : Nat) : Nat → Board → Nat → Bool → Int → Int → Int
  | fuel, b, d, isMax, alpha, beta =>
    if check_winner n b Mark.O then 1000 - (d : Int)
    else if check_winner n b Mark.X then -1000 + (d : Int)
    else
      match fuel with
      | 0 => evaluate_board n b
      | fuel' + 1 =>
        let ms := get_valid_moves b
        if ms.isEmpty then evaluate_board n b
        else if isMax then
          abMaxLoopP (fun b2 a2 b2' => minimaxAB n fuel' b2 (d+1) false a2 b2') ms b alpha beta negInf
        else
          abMinLoopP (fun b2 a2 b2' => minimaxAB n fuel' b2 (d+1) true a2 b2') ms b alpha beta posInf

/-- Left fold of `max` over the values of a move list. -/
def foldMax (g : Nat → Int) : List Nat → Int → Int
  | [], acc => acc
  | m :: rest, acc => foldMax g rest (max acc (g m))

/-- Left fold of `min` over the values of a move list. -/
def foldMin (g : Nat → Int) : List Nat → Int → Int
  | [], acc => acc
  | m :: rest, acc => foldMin g rest (min acc (g m))

/-- Modelled from the spec: the "unpruned exhaustive minimax to the same
depth" against which §8 compares the pruned search.  Identical to
`minimax` except that every branch is explored. -/
def minimaxFull (n : Nat) : Nat → Board → Nat → Bool → Int
  | fuel, b, d, isMax =>
    if check_winner n b Mark.O then 1000 - (d : Int)
    else if check_winner n b Mark.X then -1000 + (d : Int)
    else
      match fuel with
      | 0 => evaluate_board n b
      | fuel' + 1 =>
        let ms := get_valid_moves b
        if ms.isEmpty then evaluate_board n b
        else if isMax then
          foldMax (fun m => minimaxFull n fuel' (b.set m Mark.O) (d+1) false) ms negInf
        else
          foldMin (fun m => minimaxFull n fuel' (b.set m Mark.X) (d+1) true) ms posInf

/-- Sort key used at the root of `best_move_ai`:
`abs(x - total_cells // 2)`. -/
def sortKeyCenter (n : Nat) (x : Nat) : Nat :=
  ((x : Int) - ((n*n)/2 : Nat)).natAbs

/-- Stable insertion of `x` into a key-sorted list: `x` goes before the
first element whose key is not smaller. -/
def insort (key : Nat → Nat) (x : Nat) : List Nat → List Nat
  | [] => [x]
  | y :: ys => if key y < key x then y :: insort key x ys else x :: y :: ys

/-- Stable ascending sort by `sortKeyCenter`, modelling
`valid_moves.sort(key=lambda x: abs(x - center))` (Python's sort is
stable). -/
def sortCenter (n : Nat) (l : List Nat) : List Nat :=
  l.foldr (insort (sortKeyCenter n)) []

/-- Difficulty tiers of `best_move_ai`. -/
inductive Difficulty where
  | EASY : Difficulty
  | MEDIUM : Difficulty
  | HARD : Difficulty
deriving DecidableEq, Repr

/-- Depth limit chosen by `best_move_ai`: 2 for MEDIUM, else 6/4/3 by
board size (this branch is only reached for MEDIUM and HARD). -/
def depth_limit (diff : Difficulty) (n : Nat) : Nat :=
  match diff with
  | Difficulty.MEDIUM => 2
  | _ => if n = 3 then 6 else if n = 4 then 4 else 3

/-- The root loop of `best_move_ai`: try each move with a full
`(-inf, inf)` window and keep the first strict improvement.  The board is
threaded exactly as the Python code mutates and restores it. -/
def best_loop (n fuel : Nat) : List Nat → Board → Int → Option Nat → Option Nat × Board
  | [], b, _, bm => (bm, b)
  | m :: rest, b, bv, bm =>
    let r := minimax n fuel (b.set m Mark.O) 0 false negInf posInf
    let b3 := r.2.set m Mark.E
    if bv < r.1 then best_loop n fuel rest b3 r.1 (some m)
    else best_loop n fuel rest b3 bv bm

/-- Translation of `GameLogic.best_move_ai`.  `pick` models
`random.choice` on the EASY tier (that branch reads but never writes the
board).  The second component is the board as the method leaves it. -/
def best_move_ai (pick : List Nat → Option Nat) (diff : Difficulty) (n : Nat)
    (b : Board) : Option Nat × Board :=
  let valid := get_valid_moves b
  if valid.isEmpty then (none, b)
  else
    match diff with
    | Difficulty.EASY => (pick valid, b)
    | _ =>
      let dl := depth_limit diff n
      best_loop n dl (sortCenter n valid) b negInf none

/-- Modelled from the spec: root selection of the unpruned exhaustive
minimax, with the same strict-improvement tie-breaking as the code. -/
def best_loop_full (n fuel : Nat) : List Nat → Board → Int → Option Nat → Option Nat
  | [], _, _, bm => bm
  | m :: rest, b, bv, bm =>
    let v := minimaxFull n fuel (b.set m Mark.O) 0 false
    if bv < v then best_loop_full n fuel rest b v (some m)
    else best_loop_full n fuel rest b bv bm

/-- The value of the best root move over a given move list. -/
def root_value (n fuel : Nat) (b : Board) (ms : List Nat) : Int :=
  foldMax (fun m => minimaxFull n fuel (b.set m Mark.O) 0 false) ms negInf

/-! ### Peer synchronization model

One networked peer of `ModernApp`, restricted to the fields that the
turn-lock and move-application logic reads and writes.  Message delivery
is modelled at the granularity of whole messages: a `transmit` event is a
send on one side followed by the receipt on the other. -/

/-- The wire messages handled by `handle_network_msg` (the name exchange
is configuration, not game state, and is omitted). -/
inductive Msg where
  | SIZE : Nat → Msg
  | MOVE : Nat → Msg
  | WIN : Mark → Msg
  | RESTART : Msg
deriving DecidableEq, Repr

/-- The state of one networked peer. -/
structure Peer where
  n : Nat
  game : GameState
  myRole : Mark
  isHost : Bool
  turnLock : Bool
  currPlayer : Mark
  gameRunning : Bool
deriving DecidableEq, Repr

/-- The opponent's mark as computed by `apply_remote_move`
(`PLAYER_O if self.my_role == PLAYER_X else PLAYER_X`). -/
def oppOf (m : Mark) : Mark := if m = Mark.X then Mark.O else Mark.X

/-- Translation of `switch_turn`. -/
def switchPlayer (m : Mark) : Mark := if m = Mark.X then Mark.O else Mark.X

/-- Translation of `reset_match` in ONLINE mode: fresh game, `X` to move,
`turn_lock = not is_host`. -/
def reset_match (p : Peer) : Peer :=
  { p with game := initGame p.n, currPlayer := Mark.X,
           turnLock := !p.isHost, gameRunning := true }

/-- Translation of `apply_remote_move`: the received index is passed to
`make_move` for the opponent with no validation, the turn switches, and
the lock is cleared. -/
def apply_remote_move (p : Peer) (idx : Nat) : Peer :=
  { p with game := (make_move p.game idx (oppOf p.myRole)).1,
           currPlayer := switchPlayer p.currPlayer,
           turnLock := false }

/-- Translation of the ONLINE path of `on_click`: guarded by the running
flag, the turn lock and the cell being empty; on success the move is
applied, a `MOVE` message is sent and the lock is set; the turn switches
unless the move just won. -/
def on_click (p : Peer) (idx : Nat) : Peer × Option Msg :=
  if !p.gameRunning then (p, none)
  else if p.turnLock then (p, none)
  else if !(p.game.board.getD idx Mark.E == Mark.E) then (p, none)
  else
    let g := (make_move p.game idx p.currPlayer).1
    let p1 := { p with game := g, turnLock := true }
    if check_winner p1.game.n p1.game.board p.currPlayer then
      ({ p1 with gameRunning := false }, some (Msg.MOVE idx))
    else
      ({ p1 with currPlayer := switchPlayer p.currPlayer }, some (Msg.MOVE idx))

/-- Translation of the joiner-relevant part of `handle_network_msg`:
`SIZE` adopts the dimension and starts the game, `MOVE` applies the
remote move, `WIN` stops the match, `RESTART` resets it. -/
def handle_network_msg (p : Peer) (m : Msg) : Peer :=
  match m with
  | Msg.SIZE k => reset_match { p with n := k }
  | Msg.MOVE idx => apply_remote_move p idx
  | Msg.WIN _ => { p with gameRunning := false }
  | Msg.RESTART => reset_match p

/-- A joiner immediately after the connection handshake, before any
message is processed. -/
def joinerStart : Peer :=
  { n := 3, game := initGame 3, myRole := Mark.O, isHost := false,
    turnLock := true, currPlayer := Mark.X, gameRunning := true }

/-- A host immediately after an online `reset_match`: unlocked, `X` to
move. -/
def hostStart : Peer :=
  { n := 3, game := initGame 3, myRole := Mark.X, isHost := true,
    turnLock := false, currPlayer := Mark.X, gameRunning := true }

/-! ### The FIFO invariant and concrete boards -/

/-- The state invariant maintained by legal play: the board has `n * n`
cells, each queue is duplicate-free, holds at most `n` indices, and lists
exactly the cells showing its owner's mark. -/
def Inv (g : GameState) : Prop :=
  g.board.length = g.n * g.n ∧
  g.qX.Nodup ∧ g.qO.Nodup ∧
  g.qX.length ≤ g.n ∧ g.qO.length ≤ g.n ∧
  (∀ i, i ∈ g.qX ↔ i < g.board.length ∧ g.board.getD i Mark.E = Mark.X) ∧
  (∀ i, i ∈ g.qO ↔ i < g.board.length ∧ g.board.getD i Mark.E = Mark.O)

/-- The action of `make_move` on the mover's board and queue alone,
written without the record plumbing; `make_move` is proved equal to it on
the relevant fields, and the invariant is established once for it instead
of once per player. -/
def stepQ (b : Board) (qp : List Nat) (n pos : Nat) (p : Mark) : Board × List Nat :=
  if (qp ++ [pos]).length > n then
    ((b.set pos p).set ((qp ++ [pos]).headD 0) Mark.E, (qp ++ [pos]).tail)
  else
    (b.set pos p, qp ++ [pos])

/-- A 3×3 board on which `O` can complete a line at cell 0 and at cell 5:
the two best root moves tie, so the root ordering decides between them. -/
def cexBoard : Board :=
  [Mark.E, Mark.O, Mark.O, Mark.O, Mark.O, Mark.E, Mark.E, Mark.E, Mark.E]

/-- A 3×3 board with a line (row 0) one mark short of completion for `O`,
its remaining cell empty, and the centre empty. -/
def oneShortBoard : Board :=
  [Mark.O, Mark.O, Mark.E, Mark.E, Mark.E, Mark.E, Mark.E, Mark.E, Mark.E]

/-- The empty 3×3 board. -/
def emptyBoard3 : Board := List.replicate 9 Mark.E

/-- A 3×3 board won by `O` (row 0). -/
def wonOBoard : Board :=
  [Mark.O, Mark.O, Mark.O, Mark.E, Mark.E, Mark.E, Mark.E, Mark.E, Mark.E]

/-- A 3×3 board won by `X` (row 0). -/
def wonXBoard : Board :=
  [Mark.X, Mark.X, Mark.X, Mark.E, Mark.E, Mark.E, Mark.E, Mark.E, Mark.E]

/-! ### Helper lemmas on lists and folds -/

theorem getD_set_self' {α : Type*} (l : List α) (i : Nat) (a : α) :
    (l.set i a).getD i a = a := by
  induction l generalizing i with
  | nil => simp
  | cons x xs ih =>
    cases i with
    | zero => simp
    | succ j => simpa using ih j

theorem getD_set_self {α : Type*} (l : List α) (i : Nat) (a d : α) (h : i < l.length) :
    (l.set i a).getD i d = a := by
  rw [List.getD_eq_getElem?_getD, List.getElem?_set_self h]
  rfl

theorem getD_set_ne {α : Type*} (l : List α) {i j : Nat} (a d : α) (h : i ≠ j) :
    (l.set i a).getD j d = l.getD j d := by
  rw [List.getD_eq_getElem?_getD, List.getElem?_set_ne h, ← List.getD_eq_getElem?_getD]

theorem set_getD_eq {α : Type*} (l : List α) (i : Nat) (d : α) :
    l.set i (l.getD i d) = l := by
  induction l generalizing i with
  | nil => simp
  | cons x xs ih =>
    cases i with
    | zero => simp
    | succ j =>
      simp only [List.getD_cons_succ, List.set_cons_succ]
      rw [ih]

theorem set_of_getD {α : Type*} (l : List α) (i : Nat) (d v : α) (h : l.getD i d = v) :
    l.set i v = l := by
  rw [← h, set_getD_eq]

theorem getD_replicate {α : Type*} (k i : Nat) (a d : α) :
    (List.replicate k a).getD i d = if i < k then a else d := by
  rw [List.getD_eq_getElem?_getD, List.getElem?_replicate]
  split <;> rfl

/-! ### C1: win detection -/

/-- C1: `check_winner(player)` is true iff some full row, full column, or
one of the two main diagonals consists entirely of that player's mark;
and for every `n ∈ {3,4,5}` and each of the `2n+2` winning lines, the
board holding the mark on exactly that line wins for that mark and not
for the other. -/
theorem c1_check_winner :
    (∀ (n : Nat) (b : Board) (p : Mark), check_winner n b p = true ↔ winsProp n b p) ∧
    (∀ n, n ∈ ([3, 4, 5] : List Nat) → ∀ ℓ, ℓ < 2*n+2 →
      ∀ p, p ∈ ([Mark.X, Mark.O] : List Mark) →
      check_winner n (line_board n ℓ p) p = true ∧
      check_winner n (line_board n ℓ p) (other p) = false) := by
  constructor
  · intro n b p
    simp only [check_winner, winsProp, Bool.or_eq_true, List.any_eq_true,
      List.all_eq_true, List.mem_range, beq_iff_eq]
    constructor
    · rintro (((h | h) | h) | h)
      · exact Or.inl h
      · exact Or.inr (Or.inl h)
      · exact Or.inr (Or.inr (Or.inl h))
      · exact Or.inr (Or.inr (Or.inr h))
    · rintro (h | h | h | h)
      · exact Or.inl (Or.inl (Or.inl h))
      · exact Or.inl (Or.inl (Or.inr h))
      · exact Or.inl (Or.inr h)
      · exact Or.inr h
  · decide

/-- Witness for C1 at `n = 3`, line 0 (the top row), player `X`. -/
theorem c1_check_winner_witness :
    check_winner 3 (line_board 3 0 Mark.X) Mark.X = true ∧
    check_winner 3 (line_board 3 0 Mark.X) (other Mark.X) = false :=
  c1_check_winner.2 3 (by decide) 0 (by decide) Mark.X (by decide)

/-! ### C6: terminal score monotonicity -/

/-- C6: a win of the maximizing player (`O`) detected at depth `d` scores
`1000 - d`, strictly more than the same win detected at depth `d+1`; a
win of the minimizing player (`X`) detected at depth `d` scores
`-1000 + d`, strictly less than the same loss detected at depth `d+1`. -/
theorem c6_depth_scores :
    ∀ (n fuel : Nat) (b : Board) (d : Nat) (isMax : Bool) (a β : Int),
    (check_winner n b Mark.O = true →
      (minimax n fuel b d isMax a β).1 = 1000 - (d : Int) ∧
      (minimax n fuel b (d+1) isMax a β).1 < (minimax n fuel b d isMax a β).1) ∧
    (check_winner n b Mark.O = false → check_winner n b Mark.X = true →
      (minimax n fuel b d isMax a β).1 = -1000 + (d : Int) ∧
      (minimax n fuel b d isMax a β).1 < (minimax n fuel b (d+1) isMax a β).1) := by
  intro n fuel b d isMax a β
  constructor
  · intro hO
    rw [minimax.eq_def, minimax.eq_def]
    simp only [hO, if_true]
    refine ⟨trivial, ?_⟩
    push_cast
    omega
  · intro hO hX
    rw [minimax.eq_def, minimax.eq_def]
    simp only [hO, hX, if_false, if_true, Bool.false_eq_true]
    refine ⟨trivial, ?_⟩
    push_cast
    omega

/-- Witness for C6 on concrete won boards at depths 1 and 2. -/
theorem c6_depth_scores_witness :
    ((minimax 3 2 wonOBoard 1 true negInf posInf).1 = 1000 - (1 : Int) ∧
     (minimax 3 2 wonOBoard 2 true negInf posInf).1 <
       (minimax 3 2 wonOBoard 1 true negInf posInf).1) ∧
    ((minimax 3 2 wonXBoard 1 true negInf posInf).1 = -1000 + (1 : Int) ∧
     (minimax 3 2 wonXBoard 1 true negInf posInf).1 <
       (minimax 3 2 wonXBoard 2 true negInf posInf).1) :=
  ⟨(c6_depth_scores 3 2 wonOBoard 1 true negInf posInf).1 (by decide),
   (c6_depth_scores 3 2 wonXBoard 1 true negInf posInf).2 (by decide) (by decide)⟩

/-! ### C7: the heuristic evaluation -/

/-- C7 counterexample: the harder tier's evaluation has no per-line
terms.  A 3×3 board whose row 0 is one `O` short of completion with the
remaining cell empty evaluates to `0`, the same as the empty board, and
the difficulty tiers differ only in the depth limit handed to the same
search. -/
theorem c7_counterexample :
    evaluate_board 3 oneShortBoard = 0 ∧ evaluate_board 3 emptyBoard3 = 0 ∧
    depth_limit Difficulty.HARD 3 = 6 ∧ depth_limit Difficulty.MEDIUM 3 = 2 := by
  decide

/-- C7 (amended): in every difficulty tier the non-terminal heuristic is
exactly the fixed centre-cell occupancy bonus/penalty; it depends on no
cell other than the centre, so no per-line bonus of any kind exists. -/
theorem c7_center_only :
    ∀ (n : Nat) (b b' : Board),
    b.getD ((n/2)*n + n/2) Mark.E = b'.getD ((n/2)*n + n/2) Mark.E →
    evaluate_board n b = evaluate_board n b' := by
  intro n b b' h
  simp only [evaluate_board]
  rw [h]

/-- Witness for C7: the one-short board and the empty board agree on the
centre, hence evaluate equally. -/
theorem c7_center_only_witness :
    oneShortBoard.getD ((3/2)*3 + 3/2) Mark.E = emptyBoard3.getD ((3/2)*3 + 3/2) Mark.E ∧
    evaluate_board 3 oneShortBoard = evaluate_board 3 emptyBoard3 :=
  ⟨by decide, c7_center_only 3 oneShortBoard emptyBoard3 (by decide)⟩

/-! ### Helper lemmas on `setQueues` and `make_move` -/

theorem board_setQueues (g : GameState) (p : Mark) (Q : List Nat) :
    (setQueues g p Q).board = g.board := by
  cases p <;> rfl

theorem n_setQueues (g : GameState) (p : Mark) (Q : List Nat) :
    (setQueues g p Q).n = g.n := by
  cases p <;> rfl

theorem queues_setQueues_self (g : GameState) (Q : List Nat) {p : Mark} (hp : p ≠ Mark.E) :
    queues (setQueues g p Q) p = Q := by
  cases p with
  | E => exact absurd rfl hp
  | X => rfl
  | O => rfl

theorem queues_setQueues_ne (g : GameState) (Q : List Nat) {p q : Mark} (hne : q ≠ p) :
    queues (setQueues g p Q) q = queues g q := by
  cases p <;> cases q <;> first
    | exact absurd rfl hne
    | rfl

theorem make_move_evict (g : GameState) (pos : Nat) (p : Mark)
    (h : (queues g p ++ [pos]).length > g.n) :
    make_move g pos p =
      (setQueues
        { g with board := (g.board.set pos p).set ((queues g p ++ [pos]).headD 0) Mark.E }
        p (queues g p ++ [pos]).tail,
       some ((queues g p ++ [pos]).headD 0)) := by
  have h' : g.n < (queues g p).length + 1 := by simpa using h
  simp [make_move, h']

theorem make_move_noevict (g : GameState) (pos : Nat) (p : Mark)
    (h : ¬ (queues g p ++ [pos]).length > g.n) :
    make_move g pos p =
      (setQueues { g with board := g.board.set pos p } p (queues g p ++ [pos]), none) := by
  have h' : ¬ g.n < (queues g p).length + 1 := by simpa using h
  simp [make_move, h']

/-! ### C3: FIFO eviction -/

/-- C3: when a player whose queue already holds `n` indices places
another piece, `make_move` evicts the front of the queue and clears that
cell; concretely, on a 3×3 board, `X` at 0,1,2 then 3 evicts cell 0 and
leaves `X` exactly at cells 1, 2, 3. -/
theorem c3_fifo_eviction :
    (∀ (g : GameState) (pos : Nat) (p : Mark), p ≠ Mark.E → 0 < g.n →
      (queues g p).length = g.n →
      (make_move g pos p).2 = some ((queues g p).headD 0) ∧
      queues (make_move g pos p).1 p = (queues g p).tail ++ [pos] ∧
      (make_move g pos p).1.board.getD ((queues g p).headD 0) Mark.E = Mark.E) ∧
    ((applySeq (initGame 3) [(0, Mark.X), (1, Mark.X), (2, Mark.X), (3, Mark.X)]).board =
        [Mark.E, Mark.X, Mark.X, Mark.X, Mark.E, Mark.E, Mark.E, Mark.E, Mark.E] ∧
     (applySeq (initGame 3) [(0, Mark.X), (1, Mark.X), (2, Mark.X), (3, Mark.X)]).qX =
        [1, 2, 3]) := by
  constructor
  · intro g pos p hp hn hq
    have hover : (queues g p ++ [pos]).length > g.n := by
      simp [List.length_append, hq]
    rw [make_move_evict g pos p hover]
    cases hqs : queues g p with
    | nil => rw [hqs] at hq; simp at hq; omega
    | cons r t =>
      refine ⟨rfl, ?_, ?_⟩
      · rw [queues_setQueues_self _ _ hp]
        rfl
      · rw [board_setQueues]
        exact getD_set_self' (g.board.set pos p) ((r :: t ++ [pos]).headD 0) Mark.E
  · constructor <;> decide

/-- Witness for C3: the general eviction statement instantiated at the
state reached by `X` playing 0, 1, 2 on a fresh 3×3 board. -/
theorem c3_fifo_eviction_witness :
    (make_move (applySeq (initGame 3) [(0, Mark.X), (1, Mark.X), (2, Mark.X)]) 3 Mark.X).2 =
      some ((queues (applySeq (initGame 3) [(0, Mark.X), (1, Mark.X), (2, Mark.X)]) Mark.X).headD 0) ∧
    queues (make_move (applySeq (initGame 3) [(0, Mark.X), (1, Mark.X), (2, Mark.X)]) 3 Mark.X).1 Mark.X =
      (queues (applySeq (initGame 3) [(0, Mark.X), (1, Mark.X), (2, Mark.X)]) Mark.X).tail ++ [3] ∧
    (make_move (applySeq (initGame 3) [(0, Mark.X), (1, Mark.X), (2, Mark.X)]) 3 Mark.X).1.board.getD
      ((queues (applySeq (initGame 3) [(0, Mark.X), (1, Mark.X), (2, Mark.X)]) Mark.X).headD 0) Mark.E = Mark.E :=
  c3_fifo_eviction.1 (applySeq (initGame 3) [(0, Mark.X), (1, Mark.X), (2, Mark.X)])
    3 Mark.X (by decide) (by decide) (by decide)

/-! ### C8: the turn lock -/

/-- C8: sending a local move sets the turn lock, applying a received
remote move clears it, so a synchronous move exchange keeps exactly one
peer authorized; and a joiner that processes `SIZE,4` then `MOVE,5` ends
with dimension 4, the host's mark `X` on cell 5, and its lock cleared. -/
theorem c8_turn_lock :
    ((handle_network_msg (handle_network_msg joinerStart (Msg.SIZE 4)) (Msg.MOVE 5)).n = 4 ∧
     (handle_network_msg (handle_network_msg joinerStart (Msg.SIZE 4)) (Msg.MOVE 5)).game.board.getD 5 Mark.E = Mark.X ∧
     (handle_network_msg (handle_network_msg joinerStart (Msg.SIZE 4)) (Msg.MOVE 5)).turnLock = false) ∧
    (∀ (p : Peer) (idx : Nat), p.gameRunning = true → p.turnLock = false →
      p.game.board.getD idx Mark.E = Mark.E →
      (on_click p idx).1.turnLock = true ∧ (on_click p idx).2 = some (Msg.MOVE idx)) ∧
    (∀ (p : Peer) (idx : Nat), (handle_network_msg p (Msg.MOVE idx)).turnLock = false) ∧
    (∀ (h j : Peer) (idx : Nat), h.turnLock = false → j.turnLock = true →
      h.gameRunning = true → h.game.board.getD idx Mark.E = Mark.E →
      (on_click h idx).1.turnLock = true ∧
      (handle_network_msg j (Msg.MOVE idx)).turnLock = false) := by
  refine ⟨by decide, ?_, ?_, ?_⟩
  · intro p idx h1 h2 h3
    simp only [on_click, h1, h2, h3, Bool.not_true, Bool.false_eq_true, if_false,
      beq_self_eq_true]
    split <;> exact ⟨rfl, rfl⟩
  · intro p idx
    rfl
  · intro h j idx h1 h2 h3 h4
    refine ⟨?_, rfl⟩
    simp only [on_click, h1, h2, h3, h4, Bool.not_true, Bool.false_eq_true, if_false,
      beq_self_eq_true]
    split <;> rfl

/-- Witness for C8: a freshly reset host sending a move at cell 0 while
the joiner is locked. -/
theorem c8_turn_lock_witness :
    (on_click hostStart 0).1.turnLock = true ∧
    (handle_network_msg joinerStart (Msg.MOVE 0)).turnLock = false :=
  c8_turn_lock.2.2.2 hostStart joinerStart 0 (by decide) (by decide) (by decide) (by decide)

/-! ### C10: no legality validation in `make_move` -/

/-- C10: `make_move` validates nothing — writing the mover's mark over an
occupied cell, leaving the overwritten owner's queue entry stale, and
`apply_remote_move` feeds every received index straight to `make_move`,
so an illegal remote move mutates the replica instead of being
rejected. -/
theorem c10_no_validation :
    ∀ (g : GameState) (pos : Nat) (p q : Mark),
    (p = Mark.X ∧ q = Mark.O) ∨ (p = Mark.O ∧ q = Mark.X) →
    0 < g.n →
    pos < g.board.length →
    g.board.getD pos Mark.E = q →
    pos ∉ queues g p →
    (make_move g pos p).1.board.getD pos Mark.E = p ∧
    queues (make_move g pos p).1 q = queues g q ∧
    (make_move g pos p).1.board ≠ g.board ∧
    (∀ (peer : Peer) (idx : Nat),
      (apply_remote_move peer idx).game = (make_move peer.game idx (oppOf peer.myRole)).1) := by
  intro g pos p q hpq hn hlen hocc hnot
  have hqp : q ≠ p := by
    rcases hpq with ⟨hp, hq⟩ | ⟨hp, hq⟩ <;> subst hp <;> subst hq <;> simp
  have hgoal : (make_move g pos p).1.board.getD pos Mark.E = p := by
    by_cases hover : (queues g p ++ [pos]).length > g.n
    · rw [make_move_evict g pos p hover]
      cases hqs : queues g p with
      | nil =>
        rw [hqs] at hover
        simp at hover
        omega
      | cons r t =>
        have hr : r ≠ pos := by
          intro he
          exact hnot (by rw [hqs, he]; exact List.mem_cons_self _ _)
        rw [board_setQueues]
        show ((g.board.set pos p).set ((r :: t ++ [pos]).headD 0) Mark.E).getD pos Mark.E = p
        have hh : (r :: t ++ [pos]).headD 0 = r := rfl
        rw [hh, getD_set_ne _ _ _ hr, getD_set_self _ _ _ _ hlen]
    · rw [make_move_noevict g pos p hover]
      rw [board_setQueues]
      exact getD_set_self _ _ _ _ hlen
  refine ⟨hgoal, ?_, ?_, fun peer idx => rfl⟩
  · by_cases hover : (queues g p ++ [pos]).length > g.n
    · rw [make_move_evict g pos p hover]
      exact queues_setQueues_ne _ _ hqp
    · rw [make_move_noevict g pos p hover]
      exact queues_setQueues_ne _ _ hqp
  · intro he
    have := congrArg (fun l => List.getD l pos Mark.E) he
    simp only at this
    rw [hgoal, hocc] at this
    rcases hpq with ⟨hp, hq⟩ | ⟨hp, hq⟩ <;> subst hp <;> subst hq <;> simp at this

/-- Witness for C10: `X` plays onto cell 4 of a 3×3 board already holding
`O` there. -/
theorem c10_no_validation_witness :
    (make_move (make_move (initGame 3) 4 Mark.O).1 4 Mark.X).1.board.getD 4 Mark.E = Mark.X ∧
    queues (make_move (make_move (initGame 3) 4 Mark.O).1 4 Mark.X).1 Mark.O =
      queues (make_move (initGame 3) 4 Mark.O).1 Mark.O ∧
    (make_move (make_move (initGame 3) 4 Mark.O).1 4 Mark.X).1.board ≠
      (make_move (initGame 3) 4 Mark.O).1.board ∧
    (∀ (peer : Peer) (idx : Nat),
      (apply_remote_move peer idx).game = (make_move peer.game idx (oppOf peer.myRole)).1) :=
  c10_no_validation (make_move (initGame 3) 4 Mark.O).1 4 Mark.X Mark.O
    (Or.inl ⟨rfl, rfl⟩) (by decide) (by decide) (by decide) (by decide)

/-! ### C2: the FIFO cap invariant -/

theorem make_move_stepQ_X (g : GameState) (pos : Nat) :
    (make_move g pos Mark.X).1 =
      { g with board := (stepQ g.board g.qX g.n pos Mark.X).1,
               qX := (stepQ g.board g.qX g.n pos Mark.X).2 } := by
  by_cases hover : (g.qX ++ [pos]).length > g.n
  · have hover' : g.n < g.qX.length + 1 := by simpa using hover
    rw [make_move_evict g pos Mark.X hover]
    simp [stepQ, hover', setQueues, queues]
  · have hover' : ¬ g.n < g.qX.length + 1 := by simpa using hover
    rw [make_move_noevict g pos Mark.X hover]
    simp [stepQ, hover', setQueues, queues]

theorem make_move_stepQ_O (g : GameState) (pos : Nat) :
    (make_move g pos Mark.O).1 =
      { g with board := (stepQ g.board g.qO g.n pos Mark.O).1,
               qO := (stepQ g.board g.qO g.n pos Mark.O).2 } := by
  by_cases hover : (g.qO ++ [pos]).length > g.n
  · have hover' : g.n < g.qO.length + 1 := by simpa using hover
    rw [make_move_evict g pos Mark.O hover]
    simp [stepQ, hover', setQueues, queues]
  · have hover' : ¬ g.n < g.qO.length + 1 := by simpa using hover
    rw [make_move_noevict g pos Mark.O hover]
    simp [stepQ, hover', setQueues, queues]

theorem stepQ_inv (b : Board) (qp : List Nat) (n pos : Nat) (p : Mark)
    (hpE : p ≠ Mark.E)
    (hnd : qp.Nodup) (hlp : qp.length ≤ n)
    (hmp : ∀ i, i ∈ qp ↔ i < b.length ∧ b.getD i Mark.E = p)
    (hposlen : pos < b.length)
    (hemp : b.getD pos Mark.E = Mark.E) :
    (stepQ b qp n pos p).1.length = b.length ∧
    (stepQ b qp n pos p).2.Nodup ∧
    (stepQ b qp n pos p).2.length ≤ n ∧
    (∀ i, i ∈ (stepQ b qp n pos p).2 ↔
      i < b.length ∧ (stepQ b qp n pos p).1.getD i Mark.E = p) ∧
    (∀ (o : Mark), o ≠ p → o ≠ Mark.E →
      ∀ i, b.getD i Mark.E = o ↔ (stepQ b qp n pos p).1.getD i Mark.E = o) := by
  have hposqp : pos ∉ qp := by
    intro h
    have h2 := ((hmp pos).1 h).2
    rw [hemp] at h2
    exact hpE h2.symm
  by_cases hover : (qp ++ [pos]).length > n
  · simp only [stepQ, if_pos hover]
    cases qp with
    | nil =>
      have hbb : (b.set pos p).set pos Mark.E = b := by
        rw [List.set_set]; exact set_of_getD b pos Mark.E Mark.E hemp
      refine ⟨?_, ?_, ?_, ?_, ?_⟩
      · show ((b.set pos p).set pos Mark.E).length = b.length
        rw [hbb]
      · exact List.nodup_nil
      · simp
      · intro i
        show i ∈ ([] : List Nat) ↔ i < b.length ∧ ((b.set pos p).set pos Mark.E).getD i Mark.E = p
        rw [hbb]
        exact hmp i
      · intro o _ _ i
        show b.getD i Mark.E = o ↔ ((b.set pos p).set pos Mark.E).getD i Mark.E = o
        rw [hbb]
    | cons r t =>
      have hrmem : r ∈ r :: t := List.mem_cons_self r t
      obtain ⟨hrlen, hrmark⟩ := (hmp r).1 hrmem
      have hrpos : r ≠ pos := fun he => hposqp (he ▸ hrmem)
      have hndt : t.Nodup := (List.nodup_cons.mp hnd).2
      have hrt : r ∉ t := (List.nodup_cons.mp hnd).1
      have hpost : pos ∉ t := fun h => hposqp (List.mem_cons_of_mem r h)
      refine ⟨by simp, ?_, ?_, ?_, ?_⟩
      · show (t ++ [pos]).Nodup
        rw [List.nodup_append]
        exact ⟨hndt, List.nodup_singleton pos,
          fun a ha hb => hpost ((List.mem_singleton.mp hb) ▸ ha)⟩
      · show (t ++ [pos]).length ≤ n
        have : (r :: t).length ≤ n := hlp
        simp at this ⊢
        omega
      · intro i
        show i ∈ t ++ [pos] ↔
          i < b.length ∧ ((b.set pos p).set r Mark.E).getD i Mark.E = p
        rw [List.mem_append, List.mem_singleton]
        by_cases hir : i = r
        · subst hir
          constructor
          · rintro (h | h)
            · exact absurd h hrt
            · exact absurd h hrpos
          · rintro ⟨h1, h2⟩
            rw [getD_set_self'] at h2
            exact absurd h2.symm hpE
        · by_cases hip : i = pos
          · subst hip
            refine ⟨fun _ => ⟨hposlen, ?_⟩, fun _ => Or.inr rfl⟩
            rw [getD_set_ne _ _ _ hrpos, getD_set_self _ _ _ _ hposlen]
          · have hri : r ≠ i := fun he => hir he.symm
            have hpi : pos ≠ i := fun he => hip he.symm
            rw [getD_set_ne _ _ _ hri, getD_set_ne _ _ _ hpi]
            constructor
            · rintro (h | h)
              · exact (hmp i).1 (List.mem_cons_of_mem r h)
              · exact absurd h hip
            · rintro ⟨h1, h2⟩
              have := (hmp i).2 ⟨h1, h2⟩
              rcases List.mem_cons.mp this with h | h
              · exact absurd h hir
              · exact Or.inl h
      · intro o hop hoE i
        show b.getD i Mark.E = o ↔ ((b.set pos p).set r Mark.E).getD i Mark.E = o
        by_cases hir : i = r
        · subst hir
          rw [hrmark, getD_set_self']
          constructor
          · intro h; exact absurd h.symm hop
          · intro h; exact absurd h.symm hoE
        · by_cases hip : i = pos
          · subst hip
            rw [hemp, getD_set_ne _ _ _ hrpos, getD_set_self _ _ _ _ hposlen]
            constructor
            · intro h; exact absurd h.symm hoE
            · intro h; exact absurd h.symm hop
          · have hri : r ≠ i := fun he => hir he.symm
            have hpi : pos ≠ i := fun he => hip he.symm
            rw [getD_set_ne _ _ _ hri, getD_set_ne _ _ _ hpi]
  · simp only [stepQ, if_neg hover]
    have hle : qp.length + 1 ≤ n := by
      simp at hover
      omega
    refine ⟨by simp, ?_, by simpa using hle, ?_, ?_⟩
    · rw [List.nodup_append]
      exact ⟨hnd, List.nodup_singleton pos,
        fun a ha hb => hposqp ((List.mem_singleton.mp hb) ▸ ha)⟩
    · intro i
      rw [List.mem_append, List.mem_singleton]
      constructor
      · rintro (hi | rfl)
        · obtain ⟨h1, h2⟩ := (hmp i).1 hi
          have hipos : pos ≠ i := fun he => hposqp (he ▸ hi)
          rw [getD_set_ne _ _ _ hipos]
          exact ⟨h1, h2⟩
        · exact ⟨hposlen, getD_set_self _ _ _ _ hposlen⟩
      · rintro ⟨h1, h2⟩
        by_cases hip : i = pos
        · exact Or.inr hip
        · rw [getD_set_ne _ _ _ (fun he => hip he.symm)] at h2
          exact Or.inl ((hmp i).2 ⟨h1, h2⟩)
    · intro o hop hoE i
      by_cases hip : i = pos
      · subst hip
        rw [hemp, getD_set_self _ _ _ _ hposlen]
        constructor
        · intro h; exact absurd h.symm hoE
        · intro h; exact absurd h.symm hop
      · rw [getD_set_ne _ _ _ (fun he => hip he.symm)]

theorem inv_make_move (g : GameState) (pos : Nat) (p : Mark)
    (hInv : Inv g) (hp : p = Mark.X ∨ p = Mark.O)
    (hpos : pos < g.n * g.n) (hemp : g.board.getD pos Mark.E = Mark.E) :
    Inv (make_move g pos p).1 ∧ (make_move g pos p).1.n = g.n := by
  obtain ⟨hlen, hndX, hndO, hlX, hlO, hmX, hmO⟩ := hInv
  have hposlen : pos < g.board.length := by rw [hlen]; exact hpos
  rcases hp with rfl | rfl
  · rw [make_move_stepQ_X]
    obtain ⟨s1, s2, s3, s4, s5⟩ :=
      stepQ_inv g.board g.qX g.n pos Mark.X (by simp) hndX hlX hmX hposlen hemp
    refine ⟨⟨by rw [s1, hlen], s2, hndO, s3, hlO, ?_, ?_⟩, rfl⟩
    · intro i
      rw [s1]
      exact s4 i
    · intro i
      rw [s1]
      exact (hmO i).trans (and_congr_right fun _ => s5 Mark.O (by simp) (by simp) i)
  · rw [make_move_stepQ_O]
    obtain ⟨s1, s2, s3, s4, s5⟩ :=
      stepQ_inv g.board g.qO g.n pos Mark.O (by simp) hndO hlO hmO hposlen hemp
    refine ⟨⟨by rw [s1, hlen], hndX, s2, hlX, s3, ?_, ?_⟩, rfl⟩
    · intro i
      rw [s1]
      exact (hmX i).trans (and_congr_right fun _ => s5 Mark.X (by simp) (by simp) i)
    · intro i
      rw [s1]
      exact s4 i

theorem inv_init (n : Nat) : Inv (initGame n) := by
  refine ⟨by simp [initGame], List.nodup_nil, List.nodup_nil, by simp [initGame],
    by simp [initGame], ?_, ?_⟩ <;>
    intro i <;> simp [initGame, getD_replicate]

theorem inv_applySeq (g : GameState) (ms : List (Nat × Mark))
    (hInv : Inv g) (hleg : legalSeqB g ms = true) :
    Inv (applySeq g ms) ∧ (applySeq g ms).n = g.n := by
  induction ms generalizing g with
  | nil => exact ⟨hInv, rfl⟩
  | cons m rest ih =>
    obtain ⟨pos, p⟩ := m
    simp only [legalSeqB, Bool.and_eq_true, Bool.or_eq_true, beq_iff_eq,
      decide_eq_true_eq] at hleg
    obtain ⟨⟨⟨hp, hpos⟩, hemp⟩, hrest⟩ := hleg
    obtain ⟨hInv', hn'⟩ := inv_make_move g pos p hInv hp hpos hemp
    obtain ⟨hInv'', hn''⟩ := ih (make_move g pos p).1 hInv' hrest
    exact ⟨hInv'', hn''.trans hn'⟩

theorem length_eq_of_nodup_mem_iff {l₁ l₂ : List Nat} (h₁ : l₁.Nodup) (h₂ : l₂.Nodup)
    (h : ∀ i, i ∈ l₁ ↔ i ∈ l₂) : l₁.length = l₂.length :=
  le_antisymm (h₁.subperm fun a ha => (h a).1 ha).length_le
    (h₂.subperm fun a ha => (h a).2 ha).length_le

theorem count_eq_filter_range (b : Board) (p : Mark) :
    b.count p = ((List.range b.length).filter fun i => b.getD i Mark.E == p).length := by
  induction b with
  | nil => rfl
  | cons x xs ih =>
    rw [List.count_cons, List.length_cons, List.range_succ_eq_map, List.filter_cons,
      List.filter_map]
    have hcomp : ((fun i => (x :: xs).getD i Mark.E == p) ∘ Nat.succ) =
        fun i => xs.getD i Mark.E == p := by
      funext i
      simp [Function.comp, List.getD_cons_succ]
    rw [hcomp]
    by_cases hx : x = p
    · simp [hx, ih]
    · have hx' : (x == p) = false := by simp [hx]
      have hx0 : ((x :: xs).getD 0 Mark.E == p) = false := hx'
      simp [hx0, hx', ih]

theorem inv_count (g : GameState) (hInv : Inv g) :
    g.board.count Mark.X = g.qX.length ∧ g.board.count Mark.O = g.qO.length := by
  obtain ⟨hlen, hndX, hndO, _, _, hmX, hmO⟩ := hInv
  constructor
  · rw [count_eq_filter_range]
    exact length_eq_of_nodup_mem_iff ((List.nodup_range _).filter _) hndX fun i => by
      rw [List.mem_filter, List.mem_range, beq_iff_eq]
      exact (hmX i).symm
  · rw [count_eq_filter_range]
    exact length_eq_of_nodup_mem_iff ((List.nodup_range _).filter _) hndO fun i => by
      rw [List.mem_filter, List.mem_range, beq_iff_eq]
      exact (hmO i).symm

/-- C2: along any sequence of moves on a fresh `n × n` board in which
every move targets an empty in-range cell, each player's queue length
never exceeds `n` and the number of board cells holding that player's
mark equals that queue's length.  (Quantifying over all legal sequences
covers every prefix, i.e. the state after every call.) -/
theorem c2_fifo_cap :
    ∀ (n : Nat) (ms : List (Nat × Mark)) (p : Mark),
    p = Mark.X ∨ p = Mark.O →
    legalSeqB (initGame n) ms = true →
    (queues (applySeq (initGame n) ms) p).length ≤ n ∧
    (applySeq (initGame n) ms).board.count p =
      (queues (applySeq (initGame n) ms) p).length := by
  intro n ms p hp hleg
  obtain ⟨hInv, hn⟩ := inv_applySeq (initGame n) ms (inv_init n) hleg
  have hc := inv_count _ hInv
  obtain ⟨_, _, _, hlX, hlO, _, _⟩ := hInv
  have hn' : (applySeq (initGame n) ms).n = n := hn
  rcases hp with rfl | rfl
  · exact ⟨hlX.trans_eq hn', hc.1⟩
  · exact ⟨hlO.trans_eq hn', hc.2⟩

/-- Witness for C2: three legal moves on a fresh 3×3 board. -/
theorem c2_fifo_cap_witness :
    (queues (applySeq (initGame 3) [(0, Mark.X), (4, Mark.O), (1, Mark.X)]) Mark.X).length ≤ 3 ∧
    (applySeq (initGame 3) [(0, Mark.X), (4, Mark.O), (1, Mark.X)]).board.count Mark.X =
      (queues (applySeq (initGame 3) [(0, Mark.X), (4, Mark.O), (1, Mark.X)]) Mark.X).length :=
  c2_fifo_cap 3 [(0, Mark.X), (4, Mark.O), (1, Mark.X)] Mark.X (Or.inl rfl) (by decide)

/-! ### C4: reversibility of `make_move` through the spec's `undo` -/

theorem GameState.ext' {g₁ g₂ : GameState} (hn : g₁.n = g₂.n) (hb : g₁.board = g₂.board)
    (hx : g₁.qX = g₂.qX) (ho : g₁.qO = g₂.qO) : g₁ = g₂ := by
  cases g₁
  cases g₂
  simp_all

theorem setQueues_X (g : GameState) (q : List Nat) :
    setQueues g Mark.X q = { g with qX := q } := rfl

theorem setQueues_O (g : GameState) (q : List Nat) :
    setQueues g Mark.O q = { g with qO := q } := rfl

theorem undo_move_X (g : GameState) (pos : Nat) (token : Option Nat) :
    undo_move g pos Mark.X token =
      match token with
      | some r => { g with board := (g.board.set r Mark.X).set pos Mark.E,
                           qX := (r :: g.qX).dropLast }
      | none => { g with board := g.board.set pos Mark.E, qX := g.qX.dropLast } := by
  cases token <;> simp [undo_move, setQueues, queues]

theorem undo_move_O (g : GameState) (pos : Nat) (token : Option Nat) :
    undo_move g pos Mark.O token =
      match token with
      | some r => { g with board := (g.board.set r Mark.O).set pos Mark.E,
                           qO := (r :: g.qO).dropLast }
      | none => { g with board := g.board.set pos Mark.E, qO := g.qO.dropLast } := by
  cases token <;> simp [undo_move, setQueues, queues]

/-- C4: on any state satisfying the FIFO invariant, applying a legal
placement with `make_move` and undoing it with the returned token
restores the state bit-identically, the evicted piece (if any) returning
to the front of its owner's queue.  (The code has no movement phase, so
the Phase component of the claim is vacuous.) -/
theorem c4_undo_roundtrip :
    ∀ (g : GameState) (pos : Nat) (p : Mark),
    p = Mark.X ∨ p = Mark.O →
    Inv g →
    pos < g.n * g.n →
    g.board.getD pos Mark.E = Mark.E →
    undo_move (make_move g pos p).1 pos p (make_move g pos p).2 = g := by
  intro g pos p hp hInv hpos hemp
  obtain ⟨hlen, hndX, hndO, hlX, hlO, hmX, hmO⟩ := hInv
  have hposlen : pos < g.board.length := by rw [hlen]; exact hpos
  rcases hp with rfl | rfl
  · have hposqX : pos ∉ g.qX := by
      intro h
      have h2 := ((hmX pos).1 h).2
      rw [hemp] at h2
      exact Mark.noConfusion h2
    by_cases hover : (g.qX ++ [pos]).length > g.n
    · rw [make_move_evict g pos Mark.X hover, setQueues_X]
      simp only [queues]
      cases hqs : g.qX with
      | nil =>
        have h1 : (([] : List Nat) ++ [pos]).headD 0 = pos := rfl
        have h2 : (([] : List Nat) ++ [pos]).tail = ([] : List Nat) := rfl
        rw [h1, h2, undo_move_X]
        refine GameState.ext' rfl ?_ ?_ rfl
        · show ((((g.board.set pos Mark.X).set pos Mark.E).set pos Mark.X).set pos Mark.E) = g.board
          rw [List.set_set, List.set_set, List.set_set]
          exact set_of_getD _ _ _ _ hemp
        · show ((pos :: ([] : List Nat)).dropLast) = g.qX
          rw [hqs]
          rfl
      | cons r t =>
        have hrmem : r ∈ g.qX := by rw [hqs]; exact List.mem_cons_self r t
        have hrmark : g.board.getD r Mark.E = Mark.X := ((hmX r).1 hrmem).2
        have hrpos : pos ≠ r := fun he => hposqX (he ▸ hrmem)
        have h1 : ((r :: t : List Nat) ++ [pos]).headD 0 = r := rfl
        have h2 : ((r :: t : List Nat) ++ [pos]).tail = t ++ [pos] := rfl
        rw [h1, h2, undo_move_X]
        refine GameState.ext' rfl ?_ ?_ rfl
        · show ((((g.board.set pos Mark.X).set r Mark.E).set r Mark.X).set pos Mark.E) = g.board
          rw [List.set_set]
          have hfix : (g.board.set pos Mark.X).set r Mark.X = g.board.set pos Mark.X := by
            refine set_of_getD _ _ Mark.E _ ?_
            rw [getD_set_ne _ _ _ hrpos]
            exact hrmark
          rw [hfix, List.set_set]
          exact set_of_getD _ _ _ _ hemp
        · show (r :: (t ++ [pos])).dropLast = g.qX
          rw [← List.cons_append, List.dropLast_concat, hqs]
    · rw [make_move_noevict g pos Mark.X hover, setQueues_X, undo_move_X]
      refine GameState.ext' rfl ?_ ?_ rfl
      · show (g.board.set pos Mark.X).set pos Mark.E = g.board
        rw [List.set_set]
        exact set_of_getD _ _ _ _ hemp
      · show (g.qX ++ [pos]).dropLast = g.qX
        exact List.dropLast_concat
  · have hposqO : pos ∉ g.qO := by
      intro h
      have h2 := ((hmO pos).1 h).2
      rw [hemp] at h2
      exact Mark.noConfusion h2
    by_cases hover : (g.qO ++ [pos]).length > g.n
    · rw [make_move_evict g pos Mark.O hover, setQueues_O]
      simp only [queues]
      cases hqs : g.qO with
      | nil =>
        have h1 : (([] : List Nat) ++ [pos]).headD 0 = pos := rfl
        have h2 : (([] : List Nat) ++ [pos]).tail = ([] : List Nat) := rfl
        rw [h1, h2, undo_move_O]
        refine GameState.ext' rfl ?_ rfl ?_
        · show ((((g.board.set pos Mark.O).set pos Mark.E).set pos Mark.O).set pos Mark.E) = g.board
          rw [List.set_set, List.set_set, List.set_set]
          exact set_of_getD _ _ _ _ hemp
        · show ((pos :: ([] : List Nat)).dropLast) = g.qO
          rw [hqs]
          rfl
      | cons r t =>
        have hrmem : r ∈ g.qO := by rw [hqs]; exact List.mem_cons_self r t
        have hrmark : g.board.getD r Mark.E = Mark.O := ((hmO r).1 hrmem).2
        have hrpos : pos ≠ r := fun he => hposqO (he ▸ hrmem)
        have h1 : ((r :: t : List Nat) ++ [pos]).headD 0 = r := rfl
        have h2 : ((r :: t : List Nat) ++ [pos]).tail = t ++ [pos] := rfl
        rw [h1, h2, undo_move_O]
        refine GameState.ext' rfl ?_ rfl ?_
        · show ((((g.board.set pos Mark.O).set r Mark.E).set r Mark.O).set pos Mark.E) = g.board
          rw [List.set_set]
          have hfix : (g.board.set pos Mark.O).set r Mark.O = g.board.set pos Mark.O := by
            refine set_of_getD _ _ Mark.E _ ?_
            rw [getD_set_ne _ _ _ hrpos]
            exact hrmark
          rw [hfix, List.set_set]
          exact set_of_getD _ _ _ _ hemp
        · show (r :: (t ++ [pos])).dropLast = g.qO
          rw [← List.cons_append, List.dropLast_concat, hqs]
    · rw [make_move_noevict g pos Mark.O hover, setQueues_O, undo_move_O]
      refine GameState.ext' rfl ?_ rfl ?_
      · show (g.board.set pos Mark.O).set pos Mark.E = g.board
        rw [List.set_set]
        exact set_of_getD _ _ _ _ hemp
      · show (g.qO ++ [pos]).dropLast = g.qO
        exact List.dropLast_concat

/-- Witness for C4: an eviction move (fourth `X` on a 3×3 board) undone
exactly. -/
theorem c4_undo_roundtrip_witness :
    undo_move
      (make_move (applySeq (initGame 3) [(0, Mark.X), (1, Mark.X), (2, Mark.X)]) 4 Mark.X).1
      4 Mark.X
      (make_move (applySeq (initGame 3) [(0, Mark.X), (1, Mark.X), (2, Mark.X)]) 4 Mark.X).2 =
      applySeq (initGame 3) [(0, Mark.X), (1, Mark.X), (2, Mark.X)] :=
  c4_undo_roundtrip (applySeq (initGame 3) [(0, Mark.X), (1, Mark.X), (2, Mark.X)]) 4 Mark.X
    (Or.inl rfl)
    ((inv_applySeq (initGame 3) [(0, Mark.X), (1, Mark.X), (2, Mark.X)] (inv_init 3)
      (by decide)).1)
    (by decide) (by decide)

/-! ### Search engine: unfolding lemmas -/

theorem minimax_zero (n : Nat) (b : Board) (d : Nat) (isMax : Bool) (a β : Int) :
    minimax n 0 b d isMax a β =
      if check_winner n b Mark.O then (1000 - (d : Int), b)
      else if check_winner n b Mark.X then (-1000 + (d : Int), b)
      else (evaluate_board n b, b) := by
  rw [minimax.eq_def]

theorem minimax_succ (n fuel' : Nat) (b : Board) (d : Nat) (isMax : Bool) (a β : Int) :
    minimax n (fuel' + 1) b d isMax a β =
      if check_winner n b Mark.O then (1000 - (d : Int), b)
      else if check_winner n b Mark.X then (-1000 + (d : Int), b)
      else if (get_valid_moves b).isEmpty then (evaluate_board n b, b)
      else if isMax then
        abMaxLoop (fun b2 a2 b2' => minimax n fuel' b2 (d+1) false a2 b2')
          (get_valid_moves b) b a β negInf
      else
        abMinLoop (fun b2 a2 b2' => minimax n fuel' b2 (d+1) true a2 b2')
          (get_valid_moves b) b a β posInf := by
  rw [minimax.eq_def]

theorem minimaxAB_zero (n : Nat) (b : Board) (d : Nat) (isMax : Bool) (a β : Int) :
    minimaxAB n 0 b d isMax a β =
      if check_winner n b Mark.O then 1000 - (d : Int)
      else if check_winner n b Mark.X then -1000 + (d : Int)
      else evaluate_board n b := by
  rw [minimaxAB.eq_def]

theorem minimaxAB_succ (n fuel' : Nat) (b : Board) (d : Nat) (isMax : Bool) (a β : Int) :
    minimaxAB n (fuel' + 1) b d isMax a β =
      if check_winner n b Mark.O then 1000 - (d : Int)
      else if check_winner n b Mark.X then -1000 + (d : Int)
      else if (get_valid_moves b).isEmpty then evaluate_board n b
      else if isMax then
        abMaxLoopP (fun b2 a2 b2' => minimaxAB n fuel' b2 (d+1) false a2 b2')
          (get_valid_moves b) b a β negInf
      else
        abMinLoopP (fun b2 a2 b2' => minimaxAB n fuel' b2 (d+1) true a2 b2')
          (get_valid_moves b) b a β posInf := by
  rw [minimaxAB.eq_def]

theorem minimaxFull_zero (n : Nat) (b : Board) (d : Nat) (isMax : Bool) :
    minimaxFull n 0 b d isMax =
      if check_winner n b Mark.O then 1000 - (d : Int)
      else if check_winner n b Mark.X then -1000 + (d : Int)
      else evaluate_board n b := by
  rw [minimaxFull.eq_def]

theorem minimaxFull_succ (n fuel' : Nat) (b : Board) (d : Nat) (isMax : Bool) :
    minimaxFull n (fuel' + 1) b d isMax =
      if check_winner n b Mark.O then 1000 - (d : Int)
      else if check_winner n b Mark.X then -1000 + (d : Int)
      else if (get_valid_moves b).isEmpty then evaluate_board n b
      else if isMax then
        foldMax (fun m => minimaxFull n fuel' (b.set m Mark.O) (d+1) false)
          (get_valid_moves b) negInf
      else
        foldMin (fun m => minimaxFull n fuel' (b.set m Mark.X) (d+1) true)
          (get_valid_moves b) posInf := by
  rw [minimaxFull.eq_def]

/-! ### Fold helper lemmas -/

theorem foldMax_mono (g : Nat → Int) (ms : List Nat) :
    ∀ {a1 a2 : Int}, a1 ≤ a2 → foldMax g ms a1 ≤ foldMax g ms a2 := by
  induction ms with
  | nil => intro a1 a2 h; exact h
  | cons m rest ih =>
    intro a1 a2 h
    exact ih (max_le_max h (le_refl (g m)))

theorem le_foldMax (g : Nat → Int) (ms : List Nat) (acc : Int) :
    acc ≤ foldMax g ms acc := by
  induction ms generalizing acc with
  | nil => exact le_refl acc
  | cons m rest ih => exact le_trans (le_max_left acc (g m)) (ih (max acc (g m)))

theorem foldMax_max (g : Nat → Int) (ms : List Nat) :
    ∀ (a x : Int), foldMax g ms (max a x) = max (foldMax g ms a) x := by
  induction ms with
  | nil => intro a x; rfl
  | cons m rest ih =>
    intro a x
    show foldMax g rest (max (max a x) (g m)) = max (foldMax g rest (max a (g m))) x
    rw [max_assoc, max_comm x, ← max_assoc, ih]

theorem foldMax_le (g : Nat → Int) (ms : List Nat) (B : Int)
    (hms : ∀ m ∈ ms, g m ≤ B) :
    ∀ {acc : Int}, acc ≤ B → foldMax g ms acc ≤ B := by
  induction ms with
  | nil => intro acc h; exact h
  | cons m rest ih =>
    intro acc h
    exact ih (fun x hx => hms x (List.mem_cons_of_mem m hx))
      (max_le h (hms m (List.mem_cons_self m rest)))

theorem foldMax_perm (g : Nat → Int) {l₁ l₂ : List Nat} (h : l₁.Perm l₂) :
    ∀ acc, foldMax g l₁ acc = foldMax g l₂ acc := by
  induction h with
  | nil => intro acc; rfl
  | cons x _ ih =>
    intro acc
    exact ih (max acc (g x))
  | swap x y l =>
    intro acc
    show foldMax g l (max (max acc (g y)) (g x)) = foldMax g l (max (max acc (g x)) (g y))
    rw [max_assoc, max_comm (g y), ← max_assoc]
  | trans _ _ ih1 ih2 =>
    intro acc
    rw [ih1 acc, ih2 acc]

theorem foldMin_mono (g : Nat → Int) (ms : List Nat) :
    ∀ {a1 a2 : Int}, a1 ≤ a2 → foldMin g ms a1 ≤ foldMin g ms a2 := by
  induction ms with
  | nil => intro a1 a2 h; exact h
  | cons m rest ih =>
    intro a1 a2 h
    exact ih (min_le_min h (le_refl (g m)))

theorem foldMin_le (g : Nat → Int) (ms : List Nat) (acc : Int) :
    foldMin g ms acc ≤ acc := by
  induction ms generalizing acc with
  | nil => exact le_refl acc
  | cons m rest ih => exact le_trans (ih (min acc (g m))) (min_le_left acc (g m))

theorem foldMin_min (g : Nat → Int) (ms : List Nat) :
    ∀ (a x : Int), foldMin g ms (min a x) = min (foldMin g ms a) x := by
  induction ms with
  | nil => intro a x; rfl
  | cons m rest ih =>
    intro a x
    show foldMin g rest (min (min a x) (g m)) = min (foldMin g rest (min a (g m))) x
    rw [min_assoc, min_comm x, ← min_assoc, ih]

theorem foldMin_ge (g : Nat → Int) (ms : List Nat) (B : Int)
    (hms : ∀ m ∈ ms, B ≤ g m) :
    ∀ {acc : Int}, B ≤ acc → B ≤ foldMin g ms acc := by
  induction ms with
  | nil => intro acc h; exact h
  | cons m rest ih =>
    intro acc h
    exact ih (fun x hx => hms x (List.mem_cons_of_mem m hx))
      (le_min h (hms m (List.mem_cons_self m rest)))

/-! ### The state-passing search equals the pure search and restores the board -/

theorem abMaxLoop_eq (child : Board → Int → Int → Int × Board)
    (childP : Board → Int → Int → Int)
    (hch : ∀ b2 a2 β2, child b2 a2 β2 = (childP b2 a2 β2, b2)) :
    ∀ (ms : List Nat) (b : Board) (a β acc : Int),
    (∀ m ∈ ms, b.getD m Mark.E = Mark.E) →
    abMaxLoop child ms b a β acc = (abMaxLoopP childP ms b a β acc, b) := by
  intro ms
  induction ms with
  | nil => intro b a β acc _; rfl
  | cons m rest ih =>
    intro b a β acc hms
    have hm : b.getD m Mark.E = Mark.E := hms m (List.mem_cons_self m rest)
    have hrest : ∀ x ∈ rest, b.getD x Mark.E = Mark.E :=
      fun x hx => hms x (List.mem_cons_of_mem m hx)
    have hb3 : (b.set m Mark.O).set m Mark.E = b := by
      rw [List.set_set]; exact set_of_getD _ _ _ _ hm
    simp only [abMaxLoop, abMaxLoopP, hch, hb3]
    split_ifs with hc
    · rfl
    · exact ih b _ _ _ hrest

theorem abMinLoop_eq (child : Board → Int → Int → Int × Board)
    (childP : Board → Int → Int → Int)
    (hch : ∀ b2 a2 β2, child b2 a2 β2 = (childP b2 a2 β2, b2)) :
    ∀ (ms : List Nat) (b : Board) (a β acc : Int),
    (∀ m ∈ ms, b.getD m Mark.E = Mark.E) →
    abMinLoop child ms b a β acc = (abMinLoopP childP ms b a β acc, b) := by
  intro ms
  induction ms with
  | nil => intro b a β acc _; rfl
  | cons m rest ih =>
    intro b a β acc hms
    have hm : b.getD m Mark.E = Mark.E := hms m (List.mem_cons_self m rest)
    have hrest : ∀ x ∈ rest, b.getD x Mark.E = Mark.E :=
      fun x hx => hms x (List.mem_cons_of_mem m hx)
    have hb3 : (b.set m Mark.X).set m Mark.E = b := by
      rw [List.set_set]; exact set_of_getD _ _ _ _ hm
    simp only [abMinLoop, abMinLoopP, hch, hb3]
    split_ifs with hc
    · rfl
    · exact ih b _ _ _ hrest

theorem valid_moves_empty (b : Board) :
    ∀ m ∈ get_valid_moves b, b.getD m Mark.E = Mark.E := by
  intro m hm
  have := (List.mem_filter.mp hm).2
  simpa using this

theorem minimax_eq_AB (n : Nat) :
    ∀ (fuel : Nat) (b : Board) (d : Nat) (isMax : Bool) (a β : Int),
    minimax n fuel b d isMax a β = (minimaxAB n fuel b d isMax a β, b) := by
  intro fuel
  induction fuel with
  | zero =>
    intro b d isMax a β
    rw [minimax_zero, minimaxAB_zero]
    split_ifs <;> rfl
  | succ fuel' ih =>
    intro b d isMax a β
    rw [minimax_succ, minimaxAB_succ]
    by_cases hO : check_winner n b Mark.O = true
    · simp [hO]
    · by_cases hX : check_winner n b Mark.X = true
      · simp [hO, hX]
      · by_cases hemp : (get_valid_moves b).isEmpty = true
        · simp [hO, hX, hemp]
        · cases isMax with
          | true =>
            simp only [hO, hX, hemp, Bool.false_eq_true, if_false, if_true]
            exact abMaxLoop_eq _ _ (fun b2 a2 β2 => ih b2 (d+1) false a2 β2)
              (get_valid_moves b) b a β negInf (valid_moves_empty b)
          | false =>
            simp only [hO, hX, hemp, Bool.false_eq_true, if_false, if_true]
            exact abMinLoop_eq _ _ (fun b2 a2 β2 => ih b2 (d+1) true a2 β2)
              (get_valid_moves b) b a β posInf (valid_moves_empty b)

/-! ### Knuth–Moore style correctness of the pruned loops

For a window `(a, β)` the pruned result `A` and the exhaustive result `V`
of the same node satisfy: `A ≤ a → V ≤ A`, `β ≤ A → A ≤ V`, and
`a < A < β → A = V`. -/

theorem abMaxLoopP_km (childP : Board → Int → Int → Int) (gm : Nat → Int) (b : Board)
    (β : Int)
    (hc : ∀ (m : Nat) (a2 : Int), a2 < β →
      (childP (b.set m Mark.O) a2 β ≤ a2 → gm m ≤ childP (b.set m Mark.O) a2 β) ∧
      (β ≤ childP (b.set m Mark.O) a2 β → childP (b.set m Mark.O) a2 β ≤ gm m) ∧
      (a2 < childP (b.set m Mark.O) a2 β → childP (b.set m Mark.O) a2 β < β →
        childP (b.set m Mark.O) a2 β = gm m)) :
    ∀ (ms : List Nat) (a acc : Int), a < β →
      acc ≤ abMaxLoopP childP ms b a β acc ∧
      (abMaxLoopP childP ms b a β acc ≤ a →
        foldMax gm ms acc ≤ abMaxLoopP childP ms b a β acc) ∧
      (β ≤ abMaxLoopP childP ms b a β acc →
        abMaxLoopP childP ms b a β acc ≤ foldMax gm ms acc) ∧
      (a < abMaxLoopP childP ms b a β acc → abMaxLoopP childP ms b a β acc < β →
        abMaxLoopP childP ms b a β acc = foldMax gm ms acc) := by
  intro ms
  induction ms with
  | nil =>
    intro a acc ha
    simp only [abMaxLoopP, foldMax]
    exact ⟨le_refl _, fun _ => le_refl _, fun _ => le_refl _, fun _ _ => by trivial⟩
  | cons m rest ih =>
    intro a acc ha
    obtain ⟨hc1, hc2, hc3⟩ := hc m a ha
    simp only [abMaxLoopP, foldMax]
    set c := childP (b.set m Mark.O) a β with hcdef
    set vc := gm m with hvdef
    have hV : foldMax gm rest (max acc vc) = max (foldMax gm rest acc) vc :=
      foldMax_max gm rest acc vc
    by_cases hbr : β ≤ max a c
    · rw [if_pos hbr]
      have hbc : β ≤ c := by
        rcases le_max_iff.mp hbr with h | h
        · exact absurd h (not_le.mpr ha)
        · exact h
      have hcv : c ≤ vc := hc2 hbc
      refine ⟨le_max_left _ _, ?_, ?_, ?_⟩
      · intro h
        exact absurd (hbc.trans ((le_max_right acc c).trans h)) (not_le.mpr ha)
      · intro _
        rw [hV]
        exact max_le_max (le_foldMax gm rest acc) hcv
      · intro _ hlt
        exact absurd (hbc.trans (le_max_right acc c)) (not_le.mpr hlt)
    · rw [if_neg hbr]
      have ha' : max a c < β := not_le.mp hbr
      have hcβ : c < β := lt_of_le_of_lt (le_max_right a c) ha'
      obtain ⟨I1, I2, I3, I4⟩ := ih (max a c) (max acc c) ha'
      set A := abMaxLoopP childP rest b (max a c) β (max acc c) with hAdef
      have hV'' : foldMax gm rest (max acc c) = max (foldMax gm rest acc) c :=
        foldMax_max gm rest acc c
      refine ⟨le_trans (le_max_left acc c) I1, ?_, ?_, ?_⟩
      · intro h
        have hca : c ≤ a := le_trans (le_trans (le_max_right acc c) I1) h
        have hvc : vc ≤ c := hc1 hca
        have h2 := I2 (le_trans h (le_max_left a c))
        rw [hV]
        calc max (foldMax gm rest acc) vc
            ≤ max (foldMax gm rest acc) c := max_le_max (le_refl _) hvc
          _ = foldMax gm rest (max acc c) := (hV'').symm
          _ ≤ A := h2
      · intro h
        have h3 := I3 h
        rw [hV''] at h3
        rw [hV]
        rcases le_max_iff.mp h3 with h' | h'
        · exact le_max_of_le_left h'
        · exact absurd (h.trans h') (not_le.mpr hcβ)
      · intro h1 h2
        rw [hV]
        by_cases hca : c ≤ a
        · have hvc : vc ≤ c := hc1 hca
          have hA4 := I4 (by rw [max_eq_left hca]; exact h1) h2
          rw [hV''] at hA4
          have hcA' : c < A := lt_of_le_of_lt hca h1
          rcases max_choice (foldMax gm rest acc) c with hch | hch
          · rw [hch] at hA4
            have hcR : c ≤ foldMax gm rest acc := by
              rw [← hch]; exact le_max_right _ _
            rw [max_eq_left (hvc.trans hcR)]
            exact hA4
          · rw [hch] at hA4
            exact absurd hA4 (ne_of_gt hcA')
        · have hac : a < c := not_le.mp hca
          have hceq : c = vc := hc3 hac hcβ
          by_cases hcA2 : c < A
          · have hA4 := I4 (by rw [max_eq_right hac.le]; exact hcA2) h2
            rw [hV''] at hA4
            rw [← hceq]
            exact hA4
          · have hcA : c ≤ A := le_trans (le_max_right acc c) I1
            have hAc : A = c := le_antisymm (not_lt.mp hcA2) hcA
            have hA2 := I2 (by rw [max_eq_right hac.le]; exact le_of_eq hAc)
            rw [hV''] at hA2
            rw [← hceq]
            exact le_antisymm (by rw [hAc]; exact le_max_right _ _) hA2

theorem abMinLoopP_km (childP : Board → Int → Int → Int) (gm : Nat → Int) (b : Board)
    (a : Int)
    (hc : ∀ (m : Nat) (β2 : Int), a < β2 →
      (childP (b.set m Mark.X) a β2 ≤ a → gm m ≤ childP (b.set m Mark.X) a β2) ∧
      (β2 ≤ childP (b.set m Mark.X) a β2 → childP (b.set m Mark.X) a β2 ≤ gm m) ∧
      (a < childP (b.set m Mark.X) a β2 → childP (b.set m Mark.X) a β2 < β2 →
        childP (b.set m Mark.X) a β2 = gm m)) :
    ∀ (ms : List Nat) (β acc : Int), a < β →
      abMinLoopP childP ms b a β acc ≤ acc ∧
      (abMinLoopP childP ms b a β acc ≤ a →
        foldMin gm ms acc ≤ abMinLoopP childP ms b a β acc) ∧
      (β ≤ abMinLoopP childP ms b a β acc →
        abMinLoopP childP ms b a β acc ≤ foldMin gm ms acc) ∧
      (a < abMinLoopP childP ms b a β acc → abMinLoopP childP ms b a β acc < β →
        abMinLoopP childP ms b a β acc = foldMin gm ms acc) := by
  intro ms
  induction ms with
  | nil =>
    intro β acc ha
    simp only [abMinLoopP, foldMin]
    exact ⟨le_refl _, fun _ => le_refl _, fun _ => le_refl _, fun _ _ => by trivial⟩
  | cons m rest ih =>
    intro β acc ha
    obtain ⟨hc1, hc2, hc3⟩ := hc m β ha
    simp only [abMinLoopP, foldMin]
    set c := childP (b.set m Mark.X) a β with hcdef
    set vc := gm m with hvdef
    have hV : foldMin gm rest (min acc vc) = min (foldMin gm rest acc) vc :=
      foldMin_min gm rest acc vc
    by_cases hbr : min β c ≤ a
    · rw [if_pos hbr]
      have hca : c ≤ a := by
        rcases min_le_iff.mp hbr with h | h
        · exact absurd h (not_le.mpr ha)
        · exact h
      have hvc : vc ≤ c := hc1 hca
      refine ⟨min_le_left _ _, ?_, ?_, ?_⟩
      · intro _
        rw [hV]
        exact min_le_min (foldMin_le gm rest acc) hvc
      · intro h
        exact absurd ((h.trans (min_le_right acc c)).trans hca) (not_le.mpr ha)
      · intro h1 _
        exact absurd (lt_of_lt_of_le h1 ((min_le_right acc c).trans hca)) (lt_irrefl a)
    · rw [if_neg hbr]
      have hb' : a < min β c := not_le.mp hbr
      have hac : a < c := lt_of_lt_of_le hb' (min_le_right β c)
      obtain ⟨I1, I2, I3, I4⟩ := ih (min β c) (min acc c) hb'
      set A := abMinLoopP childP rest b a (min β c) (min acc c) with hAdef
      have hV'' : foldMin gm rest (min acc c) = min (foldMin gm rest acc) c :=
        foldMin_min gm rest acc c
      refine ⟨le_trans I1 (min_le_left acc c), ?_, ?_, ?_⟩
      · intro h
        have h2 := I2 h
        rw [hV''] at h2
        rw [hV]
        rcases min_choice (foldMin gm rest acc) c with hch | hch
        · rw [hch] at h2
          exact le_trans (min_le_left _ vc) h2
        · rw [hch] at h2
          exact absurd (lt_of_lt_of_le hac (h2.trans h)) (lt_irrefl a)
      · intro h
        have hA3 := I3 ((min_le_left β c).trans h)
        rw [hV''] at hA3
        rw [hV]
        have hAR : A ≤ foldMin gm rest acc := hA3.trans (min_le_left _ c)
        have hAc : A ≤ c := hA3.trans (min_le_right _ c)
        have hbc : β ≤ c := h.trans hAc
        exact le_min hAR (hAc.trans (hc2 hbc))
      · intro h1 h2
        rw [hV]
        by_cases hcb : β ≤ c
        · have hvc : c ≤ vc := hc2 hcb
          have hA4 := I4 h1 (by rw [min_eq_left hcb]; exact h2)
          rw [hV''] at hA4
          have hAc : A < c := lt_of_lt_of_le h2 hcb
          rcases min_choice (foldMin gm rest acc) c with hch | hch
          · rw [hch] at hA4
            have hRvc : foldMin gm rest acc ≤ vc :=
              hA4 ▸ le_of_lt (lt_of_lt_of_le hAc hvc)
            rw [min_eq_left hRvc]
            exact hA4
          · rw [hch] at hA4
            exact absurd hA4 (ne_of_lt hAc)
        · have hcβ : c < β := not_le.mp hcb
          have hceq : c = vc := hc3 hac hcβ
          by_cases hAc : A < c
          · have hA4 := I4 h1 (by rw [min_eq_right hcβ.le]; exact hAc)
            rw [hV''] at hA4
            rw [← hceq]
            exact hA4
          · have hAle : A ≤ c := I1.trans (min_le_right acc c)
            have hAc' : A = c := le_antisymm hAle (not_lt.mp hAc)
            have hA3 := I3 (by rw [min_eq_right hcβ.le, hAc'])
            rw [hV''] at hA3
            rw [← hceq]
            exact le_antisymm hA3 ((min_le_right _ c).trans hAc'.ge)

theorem km_minimaxAB (n : Nat) :
    ∀ (fuel : Nat) (b : Board) (d : Nat) (isMax : Bool) (a β : Int), a < β →
      (minimaxAB n fuel b d isMax a β ≤ a →
        minimaxFull n fuel b d isMax ≤ minimaxAB n fuel b d isMax a β) ∧
      (β ≤ minimaxAB n fuel b d isMax a β →
        minimaxAB n fuel b d isMax a β ≤ minimaxFull n fuel b d isMax) ∧
      (a < minimaxAB n fuel b d isMax a β → minimaxAB n fuel b d isMax a β < β →
        minimaxAB n fuel b d isMax a β = minimaxFull n fuel b d isMax) := by
  intro fuel
  induction fuel with
  | zero =>
    intro b d isMax a β _
    have he : minimaxAB n 0 b d isMax a β = minimaxFull n 0 b d isMax := by
      rw [minimaxAB_zero, minimaxFull_zero]
    rw [he]
    exact ⟨fun _ => le_refl _, fun _ => le_refl _, fun _ _ => rfl⟩
  | succ fuel' ih =>
    intro b d isMax a β ha
    by_cases hO : check_winner n b Mark.O = true
    · have he : minimaxAB n (fuel'+1) b d isMax a β = minimaxFull n (fuel'+1) b d isMax := by
        rw [minimaxAB_succ, minimaxFull_succ]
        simp [hO]
      rw [he]
      exact ⟨fun _ => le_refl _, fun _ => le_refl _, fun _ _ => rfl⟩
    · by_cases hX : check_winner n b Mark.X = true
      · have he : minimaxAB n (fuel'+1) b d isMax a β = minimaxFull n (fuel'+1) b d isMax := by
          rw [minimaxAB_succ, minimaxFull_succ]
          simp [hO, hX]
        rw [he]
        exact ⟨fun _ => le_refl _, fun _ => le_refl _, fun _ _ => rfl⟩
      · by_cases hemp : (get_valid_moves b).isEmpty = true
        · have he : minimaxAB n (fuel'+1) b d isMax a β = minimaxFull n (fuel'+1) b d isMax := by
            rw [minimaxAB_succ, minimaxFull_succ]
            simp [hO, hX, hemp]
          rw [he]
          exact ⟨fun _ => le_refl _, fun _ => le_refl _, fun _ _ => rfl⟩
        · cases isMax with
          | true =>
            rw [minimaxAB_succ, minimaxFull_succ]
            simp only [hO, hX, hemp, Bool.false_eq_true, if_false, if_true]
            exact (abMaxLoopP_km _ _ b β
              (fun m a2 ha2 => ih (b.set m Mark.O) (d+1) false a2 β ha2)
              (get_valid_moves b) a negInf ha).2
          | false =>
            rw [minimaxAB_succ, minimaxFull_succ]
            simp only [hO, hX, hemp, Bool.false_eq_true, if_false, if_true]
            exact (abMinLoopP_km _ _ b a
              (fun m β2 hb2 => ih (b.set m Mark.X) (d+1) true a β2 hb2)
              (get_valid_moves b) β posInf ha).2

/-! ### Score bounds and the full-window corollary -/

theorem evaluate_board_bound (n : Nat) (b : Board) :
    -15 ≤ evaluate_board n b ∧ evaluate_board n b ≤ 15 := by
  simp only [evaluate_board]
  split_ifs <;> norm_num

theorem minimaxFull_bound (n : Nat) :
    ∀ (fuel : Nat) (b : Board) (d : Nat) (isMax : Bool),
    -(1000 + (d : Int) + (fuel : Int)) ≤ minimaxFull n fuel b d isMax ∧
    minimaxFull n fuel b d isMax ≤ 1000 + (d : Int) + (fuel : Int) := by
  intro fuel
  induction fuel with
  | zero =>
    intro b d isMax
    rw [minimaxFull_zero]
    have hd : (0 : Int) ≤ (d : Int) := Int.natCast_nonneg d
    have he := evaluate_board_bound n b
    split_ifs <;> constructor <;> push_cast <;> linarith [he.1, he.2]
  | succ fuel' ih =>
    intro b d isMax
    rw [minimaxFull_succ]
    have hd : (0 : Int) ≤ (d : Int) := Int.natCast_nonneg d
    have hf : (0 : Int) ≤ (fuel' : Int) := Int.natCast_nonneg fuel'
    have he := evaluate_board_bound n b
    by_cases hO : check_winner n b Mark.O = true
    · simp only [hO, if_true]
      constructor <;> push_cast <;> linarith
    · by_cases hX : check_winner n b Mark.X = true
      · simp only [hO, hX, Bool.false_eq_true, if_false, if_true]
        constructor <;> push_cast <;> linarith
      · by_cases hemp : (get_valid_moves b).isEmpty = true
        · simp only [hO, hX, hemp, Bool.false_eq_true, if_false, if_true]
          constructor <;> push_cast <;> linarith [he.1, he.2]
        · cases isMax with
          | true =>
            simp only [hO, hX, hemp, Bool.false_eq_true, if_false, if_true]
            constructor
            · cases hval : get_valid_moves b with
              | nil => rw [hval] at hemp; simp at hemp
              | cons m rest =>
                simp only [foldMax]
                calc -(1000 + (d : Int) + ((fuel' + 1 : Nat) : Int))
                    = -(1000 + ((d + 1 : Nat) : Int) + (fuel' : Int)) := by push_cast; ring
                  _ ≤ minimaxFull n fuel' (b.set m Mark.O) (d+1) false :=
                      (ih (b.set m Mark.O) (d+1) false).1
                  _ ≤ max negInf (minimaxFull n fuel' (b.set m Mark.O) (d+1) false) :=
                      le_max_right _ _
                  _ ≤ _ := le_foldMax _ rest _
            · apply foldMax_le
              · intro m _
                calc minimaxFull n fuel' (b.set m Mark.O) (d+1) false
                    ≤ 1000 + ((d + 1 : Nat) : Int) + (fuel' : Int) :=
                      (ih (b.set m Mark.O) (d+1) false).2
                  _ = 1000 + (d : Int) + ((fuel' + 1 : Nat) : Int) := by push_cast; ring
              · simp only [negInf]
                push_cast
                linarith
          | false =>
            simp only [hO, hX, hemp, Bool.false_eq_true, if_false, if_true]
            constructor
            · apply foldMin_ge
              · intro m _
                calc -(1000 + (d : Int) + ((fuel' + 1 : Nat) : Int))
                    = -(1000 + ((d + 1 : Nat) : Int) + (fuel' : Int)) := by push_cast; ring
                  _ ≤ minimaxFull n fuel' (b.set m Mark.X) (d+1) true :=
                      (ih (b.set m Mark.X) (d+1) true).1
              · simp only [posInf]
                push_cast
                linarith
            · cases hval : get_valid_moves b with
              | nil => rw [hval] at hemp; simp at hemp
              | cons m rest =>
                simp only [foldMin]
                calc foldMin _ rest (min posInf (minimaxFull n fuel' (b.set m Mark.X) (d+1) true))
                    ≤ min posInf (minimaxFull n fuel' (b.set m Mark.X) (d+1) true) :=
                      foldMin_le _ rest _
                  _ ≤ minimaxFull n fuel' (b.set m Mark.X) (d+1) true := min_le_right _ _
                  _ ≤ 1000 + ((d + 1 : Nat) : Int) + (fuel' : Int) :=
                      (ih (b.set m Mark.X) (d+1) true).2
                  _ = 1000 + (d : Int) + ((fuel' + 1 : Nat) : Int) := by push_cast; ring

theorem minimaxAB_full_window (n fuel : Nat) (b : Board) (d : Nat) (isMax : Bool)
    (hsmall : 1000 + (d : Int) + (fuel : Int) < posInf) :
    minimaxAB n fuel b d isMax negInf posInf = minimaxFull n fuel b d isMax := by
  obtain ⟨h1, h2, h3⟩ :=
    km_minimaxAB n fuel b d isMax negInf posInf (by norm_num [negInf, posInf])
  obtain ⟨hb1, hb2⟩ := minimaxFull_bound n fuel b d isMax
  have hs' : 1000 + (d : Int) + (fuel : Int) < 1000000000 := by
    simpa [posInf] using hsmall
  have hlow : negInf < minimaxFull n fuel b d isMax := by
    simp only [negInf]
    linarith
  have hhigh : minimaxFull n fuel b d isMax < posInf := lt_of_le_of_lt hb2 hsmall
  by_cases hA1 : minimaxAB n fuel b d isMax negInf posInf ≤ negInf
  · have := h1 hA1
    linarith
  · by_cases hA2 : posInf ≤ minimaxAB n fuel b d isMax negInf posInf
    · have := h2 hA2
      linarith
    · exact h3 (not_le.mp hA1) (not_le.mp hA2)

/-! ### The root loop -/

theorem best_loop_frame (n fuel : Nat) :
    ∀ (ms : List Nat) (b : Board) (bv : Int) (bm : Option Nat),
    (∀ m ∈ ms, b.getD m Mark.E = Mark.E) →
    (best_loop n fuel ms b bv bm).2 = b := by
  intro ms
  induction ms with
  | nil => intro b bv bm _; rfl
  | cons m rest ih =>
    intro b bv bm hms
    have hm := hms m (List.mem_cons_self m rest)
    have hrest : ∀ x ∈ rest, b.getD x Mark.E = Mark.E :=
      fun x hx => hms x (List.mem_cons_of_mem m hx)
    have hb3 : (b.set m Mark.O).set m Mark.E = b := by
      rw [List.set_set]; exact set_of_getD _ _ _ _ hm
    simp only [best_loop, minimax_eq_AB, hb3]
    split_ifs with h
    · exact ih b _ _ hrest
    · exact ih b _ _ hrest

theorem best_loop_eq (n fuel : Nat) (hfuel : (fuel : Int) ≤ 6) :
    ∀ (ms : List Nat) (b : Board) (bv : Int) (bm : Option Nat),
    (∀ m ∈ ms, b.getD m Mark.E = Mark.E) →
    best_loop n fuel ms b bv bm = (best_loop_full n fuel ms b bv bm, b) := by
  intro ms
  induction ms with
  | nil => intro b bv bm _; rfl
  | cons m rest ih =>
    intro b bv bm hms
    have hm := hms m (List.mem_cons_self m rest)
    have hrest : ∀ x ∈ rest, b.getD x Mark.E = Mark.E :=
      fun x hx => hms x (List.mem_cons_of_mem m hx)
    have hb3 : (b.set m Mark.O).set m Mark.E = b := by
      rw [List.set_set]; exact set_of_getD _ _ _ _ hm
    have hsmall : 1000 + (0 : Int) + (fuel : Int) < posInf := by
      simp only [posInf]
      linarith
    have hAB := minimaxAB_full_window n fuel (b.set m Mark.O) 0 false hsmall
    simp only [best_loop, best_loop_full, minimax_eq_AB, hAB, hb3]
    split_ifs with h
    · exact ih b _ _ hrest
    · exact ih b _ _ hrest

theorem mem_insort (key : Nat → Nat) (x : Nat) :
    ∀ (l : List Nat) (a : Nat), a ∈ insort key x l ↔ a = x ∨ a ∈ l := by
  intro l
  induction l with
  | nil => intro a; simp [insort]
  | cons y ys ih =>
    intro a
    simp only [insort]
    split_ifs with h
    · rw [List.mem_cons, ih a, List.mem_cons]
      tauto
    · simp only [List.mem_cons]

theorem mem_sortCenter (n : Nat) :
    ∀ (l : List Nat) (a : Nat), a ∈ sortCenter n l ↔ a ∈ l := by
  intro l
  induction l with
  | nil => intro a; simp [sortCenter]
  | cons x xs ih =>
    intro a
    show a ∈ insort (sortKeyCenter n) x (sortCenter n xs) ↔ _
    rw [mem_insort, ih a, List.mem_cons]

theorem depth_limit_le (diff : Difficulty) (n : Nat) :
    ((depth_limit diff n : Nat) : Int) ≤ 6 := by
  have h : depth_limit diff n ≤ 6 := by
    cases diff <;> simp only [depth_limit] <;>
      first
        | (split_ifs <;> omega)
        | omega
  exact_mod_cast h

/-! ### C9: the search never leaves a net mutation -/

/-- C9: the board after any call to `minimax` or to `best_move_ai` is the
board before the call — every trial placement made during the search is
undone before returning. -/
theorem c9_search_frame :
    (∀ (n fuel : Nat) (b : Board) (d : Nat) (isMax : Bool) (a β : Int),
      (minimax n fuel b d isMax a β).2 = b) ∧
    (∀ (pick : List Nat → Option Nat) (diff : Difficulty) (n : Nat) (b : Board),
      (best_move_ai pick diff n b).2 = b) := by
  constructor
  · intro n fuel b d isMax a β
    rw [minimax_eq_AB]
  · intro pick diff n b
    simp only [best_move_ai]
    by_cases hemp : (get_valid_moves b).isEmpty = true
    · simp [hemp]
    · simp only [hemp, Bool.false_eq_true, if_false]
      cases diff with
      | EASY => rfl
      | MEDIUM =>
        exact best_loop_frame n _ _ b negInf none
          (fun m hm => valid_moves_empty b m ((mem_sortCenter n _ m).mp hm))
      | HARD =>
        exact best_loop_frame n _ _ b negInf none
          (fun m hm => valid_moves_empty b m ((mem_sortCenter n _ m).mp hm))

/-! ### C5: alpha-beta equivalence and root ordering -/

/-- C5 (amended): for a fixed depth limit and evaluator the pruned root
search computes exactly the unpruned minimax result over the same root
ordering — same chosen move and same value — and the best root value is
invariant under any reordering of the root moves; the chosen move itself
can change between orderings only among equal-valued moves. -/
theorem c5_alphabeta :
    (∀ (n fuel : Nat) (b : Board) (ms : List Nat), (fuel : Int) ≤ 6 →
      (∀ m ∈ ms, b.getD m Mark.E = Mark.E) →
      best_loop n fuel ms b negInf none = (best_loop_full n fuel ms b negInf none, b)) ∧
    (∀ (pick : List Nat → Option Nat) (diff : Difficulty) (n : Nat) (b : Board),
      diff ≠ Difficulty.EASY →
      (best_move_ai pick diff n b).1 =
        best_loop_full n (depth_limit diff n) (sortCenter n (get_valid_moves b))
          b negInf none) ∧
    (∀ (n fuel : Nat) (b : Board) (l₁ l₂ : List Nat), l₁.Perm l₂ →
      root_value n fuel b l₁ = root_value n fuel b l₂) := by
  refine ⟨?_, ?_, ?_⟩
  · intro n fuel b ms hfuel hms
    exact best_loop_eq n fuel hfuel ms b negInf none hms
  · intro pick diff n b hdiff
    simp only [best_move_ai]
    by_cases hemp : (get_valid_moves b).isEmpty = true
    · have hnil : get_valid_moves b = [] := List.isEmpty_iff.mp hemp
      rw [hnil]
      simp [sortCenter, best_loop_full]
    · simp only [hemp, Bool.false_eq_true, if_false]
      cases diff with
      | EASY => exact absurd rfl hdiff
      | MEDIUM =>
        rw [best_loop_eq n (depth_limit Difficulty.MEDIUM n) (depth_limit_le _ _)
          _ b negInf none
          (fun m hm => valid_moves_empty b m ((mem_sortCenter n _ m).mp hm))]
      | HARD =>
        rw [best_loop_eq n (depth_limit Difficulty.HARD n) (depth_limit_le _ _)
          _ b negInf none
          (fun m hm => valid_moves_empty b m ((mem_sortCenter n _ m).mp hm))]
  · intro n fuel b l₁ l₂ hperm
    exact foldMax_perm _ hperm negInf

/-- Witness for C5: a two-move root list on the empty board, the MEDIUM
search on the tie board, and a two-element permutation. -/
theorem c5_alphabeta_witness :
    best_loop 3 2 [0, 4] emptyBoard3 negInf none =
      (best_loop_full 3 2 [0, 4] emptyBoard3 negInf none, emptyBoard3) ∧
    (best_move_ai (fun _ => none) Difficulty.MEDIUM 3 cexBoard).1 =
      best_loop_full 3 (depth_limit Difficulty.MEDIUM 3)
        (sortCenter 3 (get_valid_moves cexBoard)) cexBoard negInf none ∧
    root_value 3 2 cexBoard [0, 5] = root_value 3 2 cexBoard [5, 0] :=
  ⟨c5_alphabeta.1 3 2 emptyBoard3 [0, 4] (by norm_num) (by decide),
   c5_alphabeta.2.1 (fun _ => none) Difficulty.MEDIUM 3 cexBoard (by decide),
   c5_alphabeta.2.2 3 2 cexBoard [0, 5] [5, 0] (by decide)⟩

/-- C5 counterexample: on `cexBoard` the two best root moves (cells 0 and
5) tie at value 1000, so the centre-sorted pruned search picks cell 5
while the unpruned search in natural order picks cell 0 — the root
ordering does change the chosen move (though not the chosen value). -/
theorem c5_order_counterexample :
    (best_move_ai (fun _ => none) Difficulty.MEDIUM 3 cexBoard).1 = some 5 ∧
    best_loop_full 3 2 (get_valid_moves cexBoard) cexBoard negInf none = some 0 ∧
    root_value 3 2 cexBoard (sortCenter 3 (get_valid_moves cexBoard)) =
      root_value 3 2 cexBoard (get_valid_moves cexBoard) ∧
    some (5 : Nat) ≠ some 0 := by
  refine ⟨by decide, by decide, by decide, by decide⟩

end TicTac
